import Mathlib

/-!
Verification development for the `nanana` clustering subsystem.

The Lean definitions below are shallow embeddings of the Python source:

* `src/nanana/lib/kmer.py` — canonical k-mer vocabulary and featurization
  (`make_kmer_list`, `count_kmer`, `count_sequence_kmer`);
* `src/nanana/lib/hydrate.py` (and its twin in `command/plot.py`) —
  sample-and-sum cluster-level taxonomy voting (`_sample_group`,
  `build_cluster_summary`, `hydrate_clusters`);
* `src/nanana/lib/cluster_pipeline.py` — the clustering orchestration
  (`cluster_fastx`), with the external UMAP/HDBSCAN capabilities abstracted
  as function parameters;
* `src/nanana/lib/plotting.py` — the confidence-marker partition of
  `scatter_clusters`.

Sequences are `List Char`; Python strings compare lexicographically on code
points, embedded as `strLt`.  NumPy `uint16` cells are `Nat` with an explicit
`% 2 ^ 16` at each increment.  Fallible code returns `Except String`.
Randomized sampling (`DataFrame.sample(n, random_state)`) is embedded by
passing the row-selection function explicitly: theorems quantify over any
selection that returns the requested number of the group's rows, and
`takeSampler` is the concrete deterministic instance used for evaluation.
-/

set_option allowUnsafeReducibility true

attribute [local semireducible] Rat.add Rat.blt

deriving instance DecidableEq for Except

/-! ### Embedding of `src/nanana/lib/kmer.py` -/

/-- The forward DNA alphabet, `base_for = "ACGT"` in the source. -/
def base_for : List Char := ['A', 'C', 'G', 'T']

/-- `comp_tab = str.maketrans("ACGT", "TGCA")`: complement a single symbol;
symbols outside the alphabet are left unchanged, exactly as `str.translate`
leaves untranslated characters unchanged. -/
def comp_tab (c : Char) : Char :=
  if c = 'A' then 'T'
  else if c = 'C' then 'G'
  else if c = 'G' then 'C'
  else if c = 'T' then 'A'
  else c

/-- Python string comparison `s < t`: lexicographic on code points. -/
def strLt : List Char → List Char → Bool
  | _, [] => false
  | [], _ :: _ => true
  | a :: as, b :: bs =>
      decide (a.toNat < b.toNat) || (decide (a.toNat = b.toNat) && strLt as bs)

/-- `kmer_for.translate(comp_tab)[::-1]`: reverse complement. -/
def revComp (s : List Char) : List Char :=
  (s.map comp_tab).reverse

/-- The canonicalization step shared by `count_kmer` and `make_kmer_list`:
`if kmer_for < kmer_rev: kmer = kmer_for else: kmer = kmer_rev`. -/
def canonical (s : List Char) : List Char :=
  if strLt s (revComp s) then s else revComp s

/-- `product("ACGT", repeat=k)`: every oligomer over the alphabet, first
position varying slowest, exactly the order `itertools.product` yields. -/
def all_kmers : Nat → List (List Char)
  | 0 => [[]]
  | k + 1 => base_for.flatMap fun c => (all_kmers k).map fun s => c :: s

/-- The sort order used to model Python `list.sort()` on strings:
non-strict lexicographic order. -/
def sLe (a b : List Char) : Prop := strLt a b = true ∨ a = b

instance : DecidableRel sLe := fun _ _ => inferInstanceAs (Decidable (_ ∨ _))

/-- `make_kmer_list(k_size)`: canonicalize every oligomer, deduplicate
(`set`), and sort ascending (`list.sort()`). -/
def make_kmer_list (k_size : Nat) : List (List Char) :=
  List.insertionSort sLe ((all_kmers k_size).map canonical).dedup

/-- One counting-loop update `h[hsh_fn[kmer]] += 1`, with the arithmetic of
the cell update abstracted as `inc` so that the same loop body can be read
at NumPy dtype `uint16` (wrapping) or over unbounded naturals. -/
def bump (inc : Nat → Nat) (h : List Nat) (j : Nat) : List Nat :=
  h.set j (inc (h.getD j 0))

/-- The sliding windows `seq[i:(i+k)]` for `i in range(l - k + 1)`;
empty when the sequence is shorter than `k`, as the early `return` gives. -/
def windows (k : Nat) (s : List Char) : List (List Char) :=
  if s.length < k then []
  else (List.range (s.length - k + 1)).map fun i => (s.drop i).take k

/-- The value `hsh_fn[kmer]` of the lookup dict built by
`enumerate(make_kmer_list(k_size))`: the position of the first occurrence of
`x` in the vocabulary list. -/
def idxOfStr : List (List Char) → List Char → Nat
  | [], _ => 0
  | v :: vs, x => if v = x then 0 else idxOfStr vs x + 1

/-- The loop body of `count_kmer` from `kmer.py`: canonicalize one window; if
the canonical form is a vocabulary key (`kmer in hsh_fn`), increment the cell
at its index (`hsh_fn[kmer]`, the rank of the kmer in `make_kmer_list`,
embedded as `idxOfStr`).  Windows whose canonical form is not in the
vocabulary are skipped. -/
def count_step (inc : Nat → Nat) (vocab : List (List Char)) (acc : List Nat)
    (w : List Char) : List Nat :=
  let kmer := canonical w
  if kmer ∈ vocab then bump inc acc (idxOfStr vocab kmer) else acc

/-- `count_kmer(h, hsh_fn, k_size, seq)` from `kmer.py`: early return when
the sequence is shorter than `k`, else run `count_step` over every window. -/
def count_kmer (inc : Nat → Nat) (h : List Nat) (vocab : List (List Char))
    (k_size : Nat) (s : List Char) : List Nat :=
  if s.length < k_size then h
  else (windows k_size s).foldl (count_step inc vocab) h

/-- The cell update of a NumPy `uint16` array: `+= 1` wraps modulo `2^16`. -/
def incU16 (n : Nat) : Nat := (n + 1) % 65536

/-- The ideal (unbounded) cell update, for stating what the counts would be
without any fixed-width truncation. -/
def incNat (n : Nat) : Nat := n + 1

/-- The count rows accumulated by the loop of `count_sequence_kmer(k_size,
generator)`: build the vocabulary, then for each `(name, seq, qual)` record
allocate `np.zeros(array_size, np.uint16)` and count into it. -/
def kmer_count_matrix (k_size : Nat)
    (records : List (String × List Char × Option String)) : List (List Nat) :=
  records.map fun r =>
    count_kmer incU16 (List.replicate (make_kmer_list k_size).length 0)
      (make_kmer_list k_size) k_size r.2.1

/-- The return of `count_sequence_kmer`: the names, lengths and
`np.vstack(counts)` of the drained generator; `np.vstack` raises
`ValueError("need at least one array to concatenate")` on an empty list. -/
def count_sequence_kmer (k_size : Nat)
    (records : List (String × List Char × Option String)) :
    Except String (List String × List Nat × List (List Nat)) :=
  if (kmer_count_matrix k_size records).isEmpty then
    Except.error "need at least one array to concatenate"
  else
    Except.ok (records.map (·.1), records.map (fun r => r.2.1.length),
      kmer_count_matrix k_size records)

/-- A symbol of the DNA alphabet `{A, C, G, T}`. -/
def isACGT (c : Char) : Bool :=
  c = 'A' || c = 'C' || c = 'G' || c = 'T'

/-! ### Embedding of the voting tables
(`src/nanana/lib/hydrate.py`, identical twin in `src/nanana/command/plot.py`) -/

/-- One row of the cluster assignment table (`seq_name, length, hdbscan_id,
D1, D2`).  The embedding coordinates are numeric payload the voting code
never computes with, carried along so that frame effects can be stated. -/
structure ClusterRow where
  seq_name : String
  seqLength : Nat
  hdbscan_id : Int
  D1 : Int
  D2 : Int
deriving DecidableEq

/-- The read-by-taxon score matrix: column headers are taxon ids, each row is
a read id with one optional cell per column (`none` = missing evidence). -/
structure ScoreMatrix where
  cols : List String
  rows : List (String × List (Option ℚ))
deriving DecidableEq

/-- One row of the per-cluster taxonomy summary (`hdbscan_id, TaxID, name`);
the name is absent when the naming capability did not resolve the id. -/
structure SummaryRow where
  hdbscan_id : Int
  TaxID : String
  name : Option String
deriving DecidableEq

/-- A cluster row annotated by the left merge: the original row plus the
`TaxID` and `name` columns (absent when the cluster has no summary row). -/
structure HydratedRow where
  base : ClusterRow
  TaxID : Option String
  name : Option String
deriving DecidableEq

/-- `_sample_group(sample_size, random_state)`:
`target = 1 if len(group) < sample_size else sample_size` and then
`group.sample(n=target, random_state=random_state)`.  The pseudo-random row
selection is the explicit parameter `sampler`; faithfulness of a selection
is captured by hypotheses on it (it returns the requested number of the
group's rows). -/
def _sample_group (sampler : List ClusterRow → Nat → List ClusterRow)
    (sample_size : Nat) (group : List ClusterRow) : List ClusterRow :=
  sampler group (if group.length < sample_size then 1 else sample_size)

/-- The deterministic selection used to evaluate the model on concrete
inputs: take the first `n` rows of the group. -/
def takeSampler (group : List ClusterRow) (n : Nat) : List ClusterRow :=
  group.take n

/-- The distinct cluster labels of a table in ascending order: pandas
`groupby` forms one group per distinct key, keys sorted ascending. -/
def group_ids (df : List ClusterRow) : List Int :=
  List.insertionSort (· ≤ ·) ((df.map (·.hdbscan_id)).dedup)

/-- The member rows of one cluster label, in table order. -/
def members (df : List ClusterRow) (c : Int) : List ClusterRow :=
  df.filter fun r => r.hdbscan_id = c

/-- `cluster_df.groupby("hdbscan_id", group_keys=False).apply(_sample_group(...))`:
the concatenation, in ascending label order, of the per-group samples. -/
def sampled_reads (sampler : List ClusterRow → Nat → List ClusterRow)
    (sample_size : Nat) (df : List ClusterRow) : List ClusterRow :=
  (group_ids df).flatMap fun c => _sample_group sampler sample_size (members df c)

/-- `read_taxon_df.reindex(read_ids).dropna(how="all")`: look each sampled id
up in the matrix; ids absent from the matrix reindex to an all-missing row,
which `dropna(how="all")` removes, as it removes genuinely all-missing rows. -/
def dist_slice (m : ScoreMatrix) (ids : List String) : List (List (Option ℚ)) :=
  ids.filterMap fun i =>
    match m.rows.find? (fun p => p.1 = i) with
    | none => none
    | some p => if p.2.all (·.isNone) then none else some p.2

/-- Whether one read id survives `reindex` + `dropna(how="all")`: its row is
in the matrix and holds at least one non-missing cell. -/
def usable_row (m : ScoreMatrix) (id : String) : Bool :=
  match m.rows.find? (fun p => p.1 = id) with
  | none => false
  | some p => !(p.2.all (·.isNone))

/-- `dist_slice.sum(axis=0)`: per-column sums over the kept rows; pandas sums
skip missing cells, so a missing cell contributes `0`. -/
def colSums (ncols : Nat) (kept : List (List (Option ℚ))) : List ℚ :=
  (List.range ncols).map fun j => (kept.map fun r => (r.getD j none).getD 0).sum

/-- The index scan behind `Series.idxmax`: keep the first position attaining
the running maximum (a strictly greater value replaces it). -/
def argmaxFrom (bi : Nat) (bv : ℚ) (i : Nat) : List ℚ → Nat
  | [] => bi
  | x :: xs => if bv < x then argmaxFrom i x (i + 1) xs else argmaxFrom bi bv (i + 1) xs

/-- `Series.idxmax`: position of the first maximum; `none` on an empty
series (pandas raises there, a case the caller's emptiness guard excludes). -/
def idxmax : List ℚ → Option Nat
  | [] => none
  | x :: xs => some (argmaxFrom 0 x 1 xs)

/-- The per-cluster vote body: `if dist_slice.empty: continue` (pandas
`.empty` is true when either axis has length zero), else
`dist_slice.sum(axis=0).idxmax()` names the winning taxon column. -/
def winner_taxid (m : ScoreMatrix) (read_ids : List String) : Option String :=
  let kept := dist_slice m read_ids
  if kept.isEmpty ∨ m.cols.isEmpty then none
  else (idxmax (colSums m.cols.length kept)).map fun j => m.cols.getD j ""

/-- The `group_taxids` dict of `build_cluster_summary` from `hydrate.py`
(the `_build_cluster_summary` of `plot.py` is line-for-line identical): one
voting pass per sampled cluster, in ascending label order, skipping clusters
whose sampled slice of the matrix is empty.  Iteration order doubles as the
summary's key order (`set_index("hdbscan_id").sort_index()` re-sorts what is
already sorted). -/
def group_taxids (sampler : List ClusterRow → Nat → List ClusterRow)
    (sample_size : Nat) (cluster_df : List ClusterRow)
    (read_taxon_df : ScoreMatrix) : List (Int × String) :=
  (group_ids (sampled_reads sampler sample_size cluster_df)).filterMap fun c =>
    (winner_taxid read_taxon_df
        ((members (sampled_reads sampler sample_size cluster_df) c).map
          (·.seq_name))).map
      fun t => (c, t)

/-- `build_cluster_summary(cluster_df, read_taxon_df, sample_size,
random_state)`: sample each cluster, error if nothing was sampled, vote per
sampled cluster (`group_taxids` above), error if no cluster received a
winner, then resolve names for the winners in one batched call to the naming
capability (`fetch_taxon_name`, the external `taxonkit` interface of
`taxon.py`, abstracted as `nameFn`). -/
def build_cluster_summary (sampler : List ClusterRow → Nat → List ClusterRow)
    (nameFn : List String → List (String × String)) (sample_size : Nat)
    (cluster_df : List ClusterRow) (read_taxon_df : ScoreMatrix) :
    Except String (List SummaryRow) :=
  if (sampled_reads sampler sample_size cluster_df).isEmpty then
    Except.error "No reads available to assign taxonomy."
  else if (group_taxids sampler sample_size cluster_df read_taxon_df).isEmpty then
    Except.error "Unable to assign taxonomy to any cluster with provided distances."
  else
    Except.ok ((group_taxids sampler sample_size cluster_df read_taxon_df).map fun p =>
      ⟨p.1, p.2,
        ((nameFn ((group_taxids sampler sample_size cluster_df read_taxon_df).map (·.2))).find?
            (fun q => q.1 = p.2)).map (·.2)⟩)

/-- The summary rows matching one merge key. -/
def merge_matches (right : List SummaryRow) (c : Int) : List SummaryRow :=
  right.filter fun s => s.hdbscan_id = c

/-- `cluster_df.merge(summary_df.reset_index(), on="hdbscan_id", how="left")`:
every left row paired with every summary row of equal key, left rows without
a match kept once with both added columns absent. -/
def merge_left (left : List ClusterRow) (right : List SummaryRow) :
    List HydratedRow :=
  left.flatMap fun r =>
    if (merge_matches right r.hdbscan_id).isEmpty then [⟨r, none, none⟩]
    else (merge_matches right r.hdbscan_id).map fun s => ⟨r, some s.TaxID, s.name⟩

/-- `hydrate_clusters`: build the summary, then left-merge it onto the
cluster table; returns the annotated reads and the summary. -/
def hydrate_clusters (sampler : List ClusterRow → Nat → List ClusterRow)
    (nameFn : List String → List (String × String)) (sample_size : Nat)
    (cluster_df : List ClusterRow) (read_taxon_df : ScoreMatrix) :
    Except String (List HydratedRow × List SummaryRow) :=
  (build_cluster_summary sampler nameFn sample_size cluster_df read_taxon_df).map
    fun summary => (merge_left cluster_df summary, summary)

/-! ### Per-read direct assignment (spec §4.4(b)) -/

/-- One row of the per-read taxonomy table
(`seq_name, TaxID, name, confidence`). -/
structure ReadTaxonomyRow where
  seq_name : String
  TaxID : String
  name : Option String
  confidence : ℚ
deriving DecidableEq

/-- The scan over one score-matrix row: running first maximum over the
usable (present) cells, skipping unusable ones. -/
def argmaxOptFrom (best : Option (Nat × ℚ)) (i : Nat) :
    List (Option ℚ) → Option (Nat × ℚ)
  | [] => best
  | none :: xs => argmaxOptFrom best (i + 1) xs
  | some x :: xs =>
      match best with
      | none => argmaxOptFrom (some (i, x)) (i + 1) xs
      | some (bi, bv) =>
          if bv < x then argmaxOptFrom (some (i, x)) (i + 1) xs
          else argmaxOptFrom (some (bi, bv)) (i + 1) xs

/-- Modelled from the spec: the winner of one read's score-matrix row — the
column holding the maximum usable (numeric, non-missing) score, with that
score as confidence; `none` when the row has no usable cell.  (The per-read
direct-assignment strategy of spec §4.4(b) has no implementation under
`src/`; only its consumers — the `confidence` column handling of
`command/plot.py` — appear there.) -/
def row_winner (cols : List String) (cells : List (Option ℚ)) :
    Option (String × ℚ) :=
  (argmaxOptFrom none 0 cells).map fun p => (cols.getD p.1 "", p.2)

/-- Modelled from the spec: the winner for a read id of the assignment
table — inspect that read's score-matrix row; a read absent from the matrix
has no usable cell at all. -/
def readWinner (m : ScoreMatrix) (id : String) : Option (String × ℚ) :=
  match m.rows.find? (fun p => p.1 = id) with
  | none => none
  | some p => row_winner m.cols p.2

/-- Modelled from the spec: per-read direct assignment (spec §4.4(b)); not
implemented under `src/`.  For every read id in the assignment table,
inspect its score-matrix row; rows with no usable cell are excluded; fail
`Unassignable` exactly when the output would be entirely empty; resolve
names for the winners in one batched lookup. -/
def assigned_winners (cluster_df : List ClusterRow) (m : ScoreMatrix) :
    List (String × String × ℚ) :=
  cluster_df.filterMap fun r =>
    (readWinner m r.seq_name).map fun w => (r.seq_name, w.1, w.2)

/-- Modelled from the spec: fail `Unassignable` exactly when no read was
assigned, else resolve names for the distinct winners in one batched lookup
and emit the per-read table. -/
def assign_reads (nameFn : List String → List (String × String))
    (cluster_df : List ClusterRow) (m : ScoreMatrix) :
    Except String (List ReadTaxonomyRow) :=
  if (assigned_winners cluster_df m).isEmpty then
    Except.error "Unassignable"
  else
    Except.ok ((assigned_winners cluster_df m).map fun a =>
      ⟨a.1, a.2.1,
        ((nameFn ((assigned_winners cluster_df m).map fun b => b.2.1).dedup).find?
            (fun q => q.1 = a.2.1)).map (·.2),
        a.2.2⟩)

/-! ### Embedding of `scatter_clusters` (`src/nanana/lib/plotting.py`) -/

/-- The data a plotted row contributes: its embedding coordinates, cluster
label, and the value of the confidence column after
`pd.to_numeric(..., errors="coerce")` (`none` = missing or non-numeric). -/
structure PlotRow where
  D1 : Int
  D2 : Int
  hdbscan_id : Int
  confidence : Option ℚ
deriving DecidableEq

/-- `low_mask = (confidence <= threshold).fillna(False)`: a missing or
non-numeric confidence compares as `False` (the later `fillna(False)` is a
no-op on an already-boolean mask). -/
def low_mask (threshold : ℚ) (conf : Option ℚ) : Bool :=
  match conf with
  | some x => decide (x ≤ threshold)
  | none => false

/-- One `ax.scatter` call: the marker glyph used and the rows drawn. -/
structure ScatterCall where
  marker : String
  rows : List PlotRow
deriving DecidableEq

/-- The `use_confidence` gate of `scatter_clusters`: a confidence column was
named, a threshold given, and the column is present in the table. -/
def use_confidence (confidence_column : Option String)
    (confidence_threshold : Option ℚ) (table_columns : List String) : Bool :=
  match confidence_column, confidence_threshold with
  | some col, some _ => table_columns.contains col
  | _, _ => false

/-- The `low_mask` selection of `scatter_clusters`. -/
def low_rows (rows : List PlotRow) (threshold : ℚ) : List PlotRow :=
  rows.filter fun p => low_mask threshold p.confidence

/-- The `~low_mask` selection of `scatter_clusters`. -/
def high_rows (rows : List PlotRow) (threshold : ℚ) : List PlotRow :=
  rows.filter fun p => !low_mask threshold p.confidence

/-- The scatter calls `scatter_clusters` issues: with confidence active, the
`low_mask` rows with the low-confidence marker and the `~low_mask` rows with
the high-confidence marker (each call skipped when its partition is empty);
otherwise a single call drawing every row with the high-confidence marker. -/
def scatter_groups (useConf : Bool) (rows : List PlotRow) (threshold : ℚ)
    (low_confidence_marker high_confidence_marker : String) : List ScatterCall :=
  if useConf then
    (if (low_rows rows threshold).isEmpty then []
      else [⟨low_confidence_marker, low_rows rows threshold⟩]) ++
      (if (high_rows rows threshold).isEmpty then []
        else [⟨high_confidence_marker, high_rows rows threshold⟩])
  else [⟨high_confidence_marker, rows⟩]

/-! ### Embedding of `cluster_fastx` (`src/nanana/lib/cluster_pipeline.py`)

The UMAP and HDBSCAN capabilities are external black boxes (spec §1), passed
as total functions; their real counterparts' failures abort the run, which
the claims here do not touch. -/

/-- One row of the assembled result table, `pd.concat([metadata,
coordinates], axis=1)` with columns `seq_name, length, hdbscan_id, D1, D2`. -/
structure ResultRow where
  seq_name : String
  seqLength : Nat
  hdbscan_id : Int
  D1 : Int
  D2 : Int
deriving DecidableEq

/-- `pd.concat([metadata, coordinates], axis=1)`: assemble the result table
row by row, preserving input order. -/
def assemble_rows (seq_names : List String) (lengths : List Nat)
    (labels : List Int) (embedding : List (Int × Int)) : List ResultRow :=
  (seq_names.zip (lengths.zip (labels.zip embedding))).map
    fun p => ⟨p.1, p.2.1, p.2.2.1, p.2.2.2.1, p.2.2.2.2⟩

/-- `cluster_fastx`: count k-mers over the drained record iterator, raise
`ValueError` if zero sequences were read, embed, cluster, and assemble the
table in input order. -/
def cluster_fastx (umapFn : List (List Nat) → List (Int × Int))
    (hdbscanFn : List (Int × Int) → List Int) (kmer_size : Nat)
    (records : List (String × List Char × Option String)) :
    Except String (List ResultRow) :=
  match count_sequence_kmer kmer_size records with
  | Except.error e => Except.error e
  | Except.ok (seq_names, lengths, count_matrix) =>
      if seq_names.length = 0 then
        Except.error "No sequences were read from the input."
      else
        assemble_rows seq_names lengths (hdbscanFn (umapFn count_matrix))
          (umapFn count_matrix)
        |> Except.ok

/-! ### Concrete tables used to evaluate the model

Small inputs on which the definitions above are executed (by `decide`)
inside closed theorems.  `noNames` stands in for a naming capability that
resolves nothing; `oneName` resolves the single taxon id `"77"`. -/

/-- A naming capability resolving no id (every id maps to an absent name). -/
def noNames : List String → List (String × String) := fun _ => []

/-- A naming capability resolving taxon id `"77"`. -/
def oneName : List String → List (String × String) := fun _ => [("77", "Bacteria")]

/-- One cluster (label 0) with two member reads. -/
def dfPair : List ClusterRow := [⟨"r1", 10, 0, 0, 0⟩, ⟨"r2", 12, 0, 1, 1⟩]

/-- Scores for `dfPair`: one taxon column, `r1 → 5`, `r2 → 3`. -/
def mPair : ScoreMatrix := ⟨["A"], [("r1", [some 5]), ("r2", [some 3])]⟩

/-- A single read carrying the noise label `-1`. -/
def dfNoise : List ClusterRow := [⟨"q1", 7, -1, 0, 0⟩]

/-- Scores for `dfNoise`: the noise read has usable evidence for taxon `"5"`. -/
def mNoise : ScoreMatrix := ⟨["5"], [("q1", [some 2])]⟩

/-- Two reads in two clusters; only the first has a score-matrix row. -/
def dfHyd : List ClusterRow := [⟨"r1", 10, 3, 0, 0⟩, ⟨"rX", 4, 7, 1, 1⟩]

/-- Scores for `dfHyd`: only `r1` appears, with evidence for taxon `"77"`. -/
def mHyd : ScoreMatrix := ⟨["77"], [("r1", [some 1])]⟩

/-- Two reads for the per-read assignment: `r1` has usable scores, `r2` only
missing cells. -/
def dfReads : List ClusterRow := [⟨"r1", 5, 0, 0, 0⟩, ⟨"r2", 5, 0, 0, 0⟩]

/-- Scores for `dfReads`: `r1 → {T1: 2, T2: 5}`, `r2` all missing. -/
def mReads : ScoreMatrix :=
  ⟨["T1", "T2"], [("r1", [some 2, some 5]), ("r2", [none, none])]⟩

/-- Three plotted rows: confidence `0` (low at threshold `0`), missing
confidence, and confidence `1`. -/
def plotRows : List PlotRow := [⟨0, 0, 0, some 0⟩, ⟨1, 1, 0, none⟩, ⟨2, 2, 1, some 1⟩]

/-- A stub embedding capability: one `(0, 0)` coordinate pair per row. -/
def umapStub : List (List Nat) → List (Int × Int) := fun rows => rows.map fun _ => (0, 0)

/-- A stub clustering capability: label `0` for every point. -/
def hdbscanStub : List (Int × Int) → List Int := fun pts => pts.map fun _ => 0

/-! ### Order lemmas for Python string comparison -/

theorem char_toNat_inj {a b : Char} (h : a.toNat = b.toNat) : a = b := by
  have h2 : a.val = b.val := by
    rcases a with ⟨⟨av⟩, ha⟩
    rcases b with ⟨⟨bv⟩, hb⟩
    simp only [Char.toNat, UInt32.toNat] at h
    exact congrArg UInt32.mk (BitVec.eq_of_toNat_eq h)
  exact Char.ext h2

theorem strLt_nil_right : ∀ a : List Char, strLt a [] = false
  | [] => rfl
  | _ :: _ => rfl

theorem strLt_cons_cons (a b : Char) (as bs : List Char) :
    strLt (a :: as) (b :: bs) =
      (decide (a.toNat < b.toNat) || (decide (a.toNat = b.toNat) && strLt as bs)) := rfl

theorem strLt_irrefl : ∀ a : List Char, strLt a a = false
  | [] => rfl
  | c :: cs => by
    rw [strLt_cons_cons, strLt_irrefl cs]
    simp

theorem strLt_trans :
    ∀ (a b c : List Char), strLt a b = true → strLt b c = true → strLt a c = true
  | _, [], _, h1, _ => by rw [strLt_nil_right] at h1; exact absurd h1 (by simp)
  | _, _ :: _, [], _, h2 => by rw [strLt_nil_right] at h2; exact absurd h2 (by simp)
  | [], _ :: _, _ :: _, _, _ => rfl
  | a :: as, b :: bs, c :: cs, h1, h2 => by
    rw [strLt_cons_cons] at h1 h2 ⊢
    simp only [Bool.or_eq_true, Bool.and_eq_true, decide_eq_true_eq] at h1 h2 ⊢
    rcases h1 with h1 | ⟨hab, h1⟩
    · rcases h2 with h2 | ⟨hbc, h2⟩
      · exact Or.inl (by omega)
      · exact Or.inl (by omega)
    · rcases h2 with h2 | ⟨hbc, h2⟩
      · exact Or.inl (by omega)
      · exact Or.inr ⟨by omega, strLt_trans as bs cs h1 h2⟩

theorem strLt_asymm {a b : List Char} (h : strLt a b = true) : strLt b a = false := by
  cases h2 : strLt b a
  · rfl
  · have := strLt_trans a b a h h2
    rw [strLt_irrefl] at this
    exact absurd this (by simp)

theorem strLt_connex :
    ∀ (a b : List Char), strLt a b = false → strLt b a = false → a = b
  | [], [], _, _ => rfl
  | [], _ :: _, h1, _ => by exact absurd h1 (by simp [strLt])
  | _ :: _, [], _, h2 => by exact absurd h2 (by simp [strLt])
  | a :: as, b :: bs, h1, h2 => by
    rw [strLt_cons_cons] at h1 h2
    simp only [Bool.or_eq_false_iff, Bool.and_eq_false_iff, decide_eq_false_iff_not,
      decide_eq_true_eq] at h1 h2
    have hab : a = b := char_toNat_inj (by omega)
    subst hab
    have h1t : strLt as bs = false := by
      rcases h1.2 with h | h
      · exact absurd rfl h
      · exact h
    have h2t : strLt bs as = false := by
      rcases h2.2 with h | h
      · exact absurd rfl h
      · exact h
    rw [strLt_connex as bs h1t h2t]

instance : IsTrans (List Char) sLe where
  trans := by
    intro a b c hab hbc
    rcases hab with hab | hab
    · rcases hbc with hbc | hbc
      · exact Or.inl (strLt_trans a b c hab hbc)
      · subst hbc; exact Or.inl hab
    · subst hab; exact hbc

instance : IsTotal (List Char) sLe where
  total := by
    intro a b
    cases h1 : strLt a b
    · cases h2 : strLt b a
      · exact Or.inl (Or.inr (strLt_connex a b h1 h2))
      · exact Or.inr (Or.inl h2)
    · exact Or.inl (Or.inl h1)

/-! ### Complement and reverse-complement lemmas -/

theorem comp_comp (c : Char) : comp_tab (comp_tab c) = c := by
  by_cases h1 : c = 'A'
  · subst h1; rfl
  by_cases h2 : c = 'C'
  · subst h2; rfl
  by_cases h3 : c = 'G'
  · subst h3; rfl
  by_cases h4 : c = 'T'
  · subst h4; rfl
  simp [comp_tab, h1, h2, h3, h4]

theorem isACGT_comp (c : Char) : isACGT (comp_tab c) = isACGT c := by
  by_cases h1 : c = 'A'
  · subst h1; rfl
  by_cases h2 : c = 'C'
  · subst h2; rfl
  by_cases h3 : c = 'G'
  · subst h3; rfl
  by_cases h4 : c = 'T'
  · subst h4; rfl
  simp [comp_tab, h1, h2, h3, h4]

theorem length_revComp (s : List Char) : (revComp s).length = s.length := by
  simp [revComp]

theorem revComp_revComp (s : List Char) : revComp (revComp s) = s := by
  unfold revComp
  rw [List.map_reverse, List.reverse_reverse, List.map_map]
  have h : comp_tab ∘ comp_tab = id := funext comp_comp
  rw [h, List.map_id]

theorem all_isACGT_revComp (s : List Char) :
    (revComp s).all isACGT = s.all isACGT := by
  unfold revComp
  rw [List.all_reverse, List.all_map]
  exact congrArg _ (funext fun c => isACGT_comp c)

theorem canonical_eq_or (s : List Char) :
    canonical s = s ∨ canonical s = revComp s := by
  unfold canonical
  split
  · exact Or.inl rfl
  · exact Or.inr rfl

theorem length_canonical (s : List Char) : (canonical s).length = s.length := by
  rcases canonical_eq_or s with h | h <;> rw [h]
  exact length_revComp s

theorem all_canonical (s : List Char) :
    (canonical s).all isACGT = s.all isACGT := by
  rcases canonical_eq_or s with h | h <;> rw [h]
  exact all_isACGT_revComp s

theorem canonical_revComp (s : List Char) : canonical (revComp s) = canonical s := by
  unfold canonical
  rw [revComp_revComp]
  cases h1 : strLt s (revComp s) <;> cases h2 : strLt (revComp s) s
  · have h3 := strLt_connex _ _ h2 h1
    simp [h3]
  · simp
  · simp
  · have := strLt_asymm h1
    rw [this] at h2
    exact absurd h2 (by simp)

/-! ### Vocabulary lemmas -/

theorem mem_base_for {c : Char} : c ∈ base_for ↔ isACGT c = true := by
  simp only [base_for, isACGT, List.mem_cons, List.not_mem_nil, or_false,
    Bool.or_eq_true, decide_eq_true_eq]
  tauto

theorem mem_all_kmers :
    ∀ (k : Nat) {s : List Char},
      s ∈ all_kmers k ↔ (s.length = k ∧ s.all isACGT = true)
  | 0, s => by
    simp only [all_kmers, List.mem_singleton]
    constructor
    · rintro rfl
      exact ⟨rfl, rfl⟩
    · rintro ⟨h1, _⟩
      exact List.length_eq_zero.mp h1
  | k + 1, s => by
    simp only [all_kmers, List.mem_flatMap, List.mem_map]
    constructor
    · rintro ⟨c, hc, t, ht, rfl⟩
      have := (mem_all_kmers k).mp ht
      refine ⟨by simp [this.1], ?_⟩
      simp only [List.all_cons, Bool.and_eq_true, this.2, and_true]
      exact mem_base_for.mp hc
    · rintro ⟨h1, h2⟩
      cases s with
      | nil => exact absurd h1 (by simp)
      | cons c t =>
        simp only [List.all_cons, Bool.and_eq_true] at h2
        refine ⟨c, mem_base_for.mpr h2.1, t, (mem_all_kmers k).mpr ⟨by simpa using h1, h2.2⟩, rfl⟩

theorem mem_make_kmer_list {x : List Char} {k : Nat} :
    x ∈ make_kmer_list k ↔ x ∈ (all_kmers k).map canonical := by
  unfold make_kmer_list
  rw [(List.perm_insertionSort sLe _).mem_iff, List.mem_dedup]

theorem canonical_mem_make_iff {w : List Char} {k : Nat} :
    canonical w ∈ make_kmer_list k ↔ (w.length = k ∧ w.all isACGT = true) := by
  rw [mem_make_kmer_list]
  constructor
  · intro h
    rcases List.mem_map.mp h with ⟨t, ht, hct⟩
    have htp := (mem_all_kmers k).mp ht
    have hlen : w.length = k := by
      have h1 : (canonical t).length = k := by rw [length_canonical]; exact htp.1
      rw [hct, length_canonical] at h1
      exact h1
    have hall : w.all isACGT = true := by
      have h1 : (canonical t).all isACGT = true := by rw [all_canonical]; exact htp.2
      rw [hct, all_canonical] at h1
      exact h1
    exact ⟨hlen, hall⟩
  · rintro ⟨h1, h2⟩
    exact List.mem_map.mpr ⟨w, (mem_all_kmers k).mpr ⟨h1, h2⟩, rfl⟩

theorem nodup_make_kmer_list (k : Nat) : (make_kmer_list k).Nodup :=
  ((List.perm_insertionSort sLe _).nodup_iff).mpr (List.nodup_dedup _)

theorem pairwise_sLe_make_kmer_list (k : Nat) :
    (make_kmer_list k).Pairwise sLe :=
  List.sorted_insertionSort sLe ((all_kmers k).map canonical).dedup

theorem pairwise_strLt_make_kmer_list (k : Nat) :
    (make_kmer_list k).Pairwise (fun a b => strLt a b = true) := by
  have h1 := (pairwise_sLe_make_kmer_list k).and (nodup_make_kmer_list k)
  exact h1.imp fun {a b} h => h.1.resolve_right h.2

/-! ### List cell-access helpers -/

theorem getD_cons_succ {α : Type} (x : α) (xs : List α) (i : Nat) (d : α) :
    (x :: xs).getD (i + 1) d = xs.getD i d := rfl

theorem getD_set_self :
    ∀ (l : List Nat) (i : Nat) (a : Nat), i < l.length → (l.set i a).getD i 0 = a
  | [], i, a, h => absurd h (by simp)
  | _ :: _, 0, _, _ => rfl
  | x :: xs, i + 1, a, h => getD_set_self xs i a (by simpa using h)

theorem getD_set_ne :
    ∀ (l : List Nat) (i j : Nat) (a : Nat), i ≠ j → (l.set i a).getD j 0 = l.getD j 0
  | [], _, _, _, _ => by simp
  | x :: xs, 0, 0, a, hne => absurd rfl hne
  | x :: xs, 0, j + 1, a, _ => rfl
  | x :: xs, i + 1, 0, a, _ => rfl
  | x :: xs, i + 1, j + 1, a, hne =>
      getD_set_ne xs i j a (fun h => hne (by omega))

theorem getD_map_mod :
    ∀ (l : List Nat) (j : Nat), (l.map (· % 65536)).getD j 0 = l.getD j 0 % 65536
  | [], j => by simp
  | x :: xs, 0 => rfl
  | x :: xs, j + 1 => getD_map_mod xs j

theorem getD_replicate_zero : ∀ (n j : Nat), (List.replicate n (0 : Nat)).getD j 0 = 0
  | 0, _ => by simp
  | _ + 1, 0 => rfl
  | n + 1, j + 1 => getD_replicate_zero n j

theorem map_getD_range {α : Type} :
    ∀ (h : List α) (d : α) (n : Nat), h.length = n →
      (List.range n).map (fun j => h.getD j d) = h := by
  intro h d n hlen
  apply List.ext_getElem
  · simp [hlen]
  · intro i h1 h2
    simp only [List.getElem_map, List.getElem_range]
    rw [List.getD_eq_getElem?_getD, List.getElem?_eq_getElem h2]
    rfl

theorem sum_map_add {α : Type} :
    ∀ (l : List α) (f g : α → Nat),
      (l.map fun x => f x + g x).sum = (l.map f).sum + (l.map g).sum
  | [], _, _ => rfl
  | x :: xs, f, g => by
    simp only [List.map_cons, List.sum_cons, sum_map_add xs f g]
    omega

theorem sum_map_indicator {α : Type} :
    ∀ (l : List α) (p : α → Bool),
      (l.map fun x => if p x then 1 else 0).sum = l.countP p
  | [], _ => rfl
  | x :: xs, p => by
    simp only [List.map_cons, List.sum_cons, List.countP_cons, sum_map_indicator xs p]
    cases h : p x
    · simp [h]
    · simp [h]
      omega

/-! ### Characterization of the counting loop -/

theorem getD_eq_getElem_of_lt {α : Type} (l : List α) (d : α) {j : Nat}
    (h : j < l.length) : l.getD j d = l[j] := by
  rw [List.getD_eq_getElem?_getD, List.getElem?_eq_getElem h]
  rfl

theorem idxOfStr_lt_length :
    ∀ {l : List (List Char)} {x : List Char}, x ∈ l → idxOfStr l x < l.length := by
  intro l
  induction l with
  | nil => intro x hx; exact absurd hx (by simp)
  | cons v vs ih =>
    intro x hx
    by_cases h : v = x
    · simp [idxOfStr, h]
    · have hx2 : x ∈ vs := by
        rcases List.mem_cons.mp hx with h1 | h1
        · exact absurd h1.symm h
        · exact h1
      simp only [idxOfStr, h, if_false, List.length_cons]
      exact Nat.succ_lt_succ (ih hx2)

theorem getElem_idxOfStr :
    ∀ {l : List (List Char)} {x : List Char} (hm : x ∈ l)
      (hlt : idxOfStr l x < l.length), l[idxOfStr l x] = x := by
  intro l
  induction l with
  | nil => intro x hm; exact absurd hm (by simp)
  | cons v vs ih =>
    intro x hm hlt
    by_cases h : v = x
    · simp [idxOfStr, h]
    · have hm2 : x ∈ vs := by
        rcases List.mem_cons.mp hm with h1 | h1
        · exact absurd h1.symm h
        · exact h1
      have hlt2 : idxOfStr vs x < vs.length := idxOfStr_lt_length hm2
      simp only [idxOfStr, h, if_false]
      rw [List.getElem_cons_succ]
      exact ih hm2 hlt2

theorem count_step_mem {inc : Nat → Nat} {vocab : List (List Char)}
    {acc : List Nat} {w : List Char} (hmem : canonical w ∈ vocab) :
    count_step inc vocab acc w = bump inc acc (idxOfStr vocab (canonical w)) := by
  simp [count_step, hmem]

theorem count_step_not_mem {inc : Nat → Nat} {vocab : List (List Char)}
    {acc : List Nat} {w : List Char} (hmem : canonical w ∉ vocab) :
    count_step inc vocab acc w = acc := by
  simp [count_step, hmem]

theorem count_foldl_eq (inc : Nat → Nat) (vocab : List (List Char))
    (hnd : vocab.Nodup) :
    ∀ (ws : List (List Char)) (h : List Nat), h.length = vocab.length →
      ws.foldl (count_step inc vocab) h
        = (List.range vocab.length).map
            (fun j => inc^[(ws.filter fun w => canonical w = vocab.getD j []).length]
              (h.getD j 0))
  | [], h, hlen => by
    simp only [List.foldl_nil, List.filter_nil, List.length_nil,
      Function.iterate_zero, id]
    exact (map_getD_range h 0 vocab.length hlen).symm
  | w :: ws, h, hlen => by
    rw [List.foldl_cons]
    by_cases hmem : canonical w ∈ vocab
    · have hidx : idxOfStr vocab (canonical w) < vocab.length :=
        idxOfStr_lt_length hmem
      rw [count_step_mem hmem]
      have hlen2 : (bump inc h (idxOfStr vocab (canonical w))).length = vocab.length := by
        simp [bump, hlen]
      rw [count_foldl_eq inc vocab hnd ws _ hlen2]
      apply List.ext_getElem
      · simp
      · intro j hj1 hj2
        simp only [List.getElem_map, List.getElem_range]
        have hjn : j < vocab.length := by simpa using hj1
        have hvj : vocab.getD j [] = vocab[j] := getD_eq_getElem_of_lt vocab [] hjn
        by_cases hji : j = idxOfStr vocab (canonical w)
        · have hpw : canonical w = vocab.getD j [] := by
            rw [hji, getD_eq_getElem_of_lt vocab [] hidx, getElem_idxOfStr hmem hidx]
          rw [List.filter_cons_of_pos (by simpa using hpw), List.length_cons]
          have hset : (bump inc h (idxOfStr vocab (canonical w))).getD j 0
              = inc (h.getD j 0) := by
            unfold bump
            rw [hji]
            exact getD_set_self h _ _ (by omega)
          rw [hset, ← Function.iterate_succ_apply]
        · have hpw : ¬(canonical w = vocab.getD j []) := by
            intro hc
            apply hji
            have h1 : vocab[j] = vocab[idxOfStr vocab (canonical w)] := by
              rw [← hvj, ← hc]
              exact (getElem_idxOfStr hmem hidx).symm
            exact hnd.getElem_inj_iff.mp h1
          rw [List.filter_cons_of_neg (by simpa using hpw)]
          have hset : (bump inc h (idxOfStr vocab (canonical w))).getD j 0
              = h.getD j 0 := by
            unfold bump
            exact getD_set_ne h _ j _ (fun hc => hji hc.symm)
          rw [hset]
    · rw [count_step_not_mem hmem]
      rw [count_foldl_eq inc vocab hnd ws h hlen]
      apply List.ext_getElem
      · simp
      · intro j hj1 hj2
        simp only [List.getElem_map, List.getElem_range]
        have hjn : j < vocab.length := by simpa using hj1
        have hpw : ¬(canonical w = vocab.getD j []) := by
          intro hc
          apply hmem
          rw [hc, getD_eq_getElem_of_lt vocab [] hjn]
          exact List.getElem_mem hjn
        rw [List.filter_cons_of_neg (by simpa using hpw)]

/-! ### Counted cells, evaluated -/

theorem iterate_incNat : ∀ (n x : Nat), incNat^[n] x = x + n
  | 0, x => by simp
  | n + 1, x => by
    rw [Function.iterate_succ_apply, iterate_incNat n (incNat x)]
    unfold incNat
    omega

theorem iterate_incU16 : ∀ (n x : Nat), x < 65536 → incU16^[n] x = (x + n) % 65536
  | 0, x, hx => by simpa using (Nat.mod_eq_of_lt hx).symm
  | n + 1, x, hx => by
    rw [Function.iterate_succ_apply]
    have h1 : incU16 x < 65536 := Nat.mod_lt _ (by omega)
    rw [iterate_incU16 n (incU16 x) h1]
    unfold incU16
    omega

theorem count_kmer_eq (inc : Nat → Nat) (vocab : List (List Char))
    (hnd : vocab.Nodup) (k : Nat) (s : List Char) :
    count_kmer inc (List.replicate vocab.length 0) vocab k s
      = (List.range vocab.length).map
          (fun j =>
            inc^[((windows k s).filter fun w => canonical w = vocab.getD j []).length] 0) := by
  unfold count_kmer
  split
  · rename_i hlt
    have hw : windows k s = [] := by unfold windows; rw [if_pos hlt]
    rw [hw]
    simp only [List.filter_nil, List.length_nil, Function.iterate_zero, id]
    rw [List.map_const', List.length_range]
  · rw [count_foldl_eq inc vocab hnd _ _ (by simp)]
    congr 1
    funext j
    rw [getD_replicate_zero]

theorem windows_mem_length {k : Nat} {s w : List Char} (hw : w ∈ windows k s) :
    w.length = k := by
  unfold windows at hw
  split at hw
  · exact absurd hw (by simp)
  · rename_i hge
    rcases List.mem_map.mp hw with ⟨i, hi, rfl⟩
    rw [List.mem_range] at hi
    simp only [List.length_take, List.length_drop]
    omega

theorem canonical_window_mem_iff {k : Nat} {s w : List Char} (hw : w ∈ windows k s) :
    (canonical w ∈ make_kmer_list k) ↔ w.all isACGT = true := by
  rw [canonical_mem_make_iff]
  have hl := windows_mem_length hw
  exact ⟨fun h => h.2, fun h => ⟨hl, h⟩⟩

theorem countP_self_eq_ite {α : Type} [DecidableEq α] :
    ∀ (l : List α), l.Nodup → ∀ x : α,
      l.countP (fun v => decide (x = v)) = if x ∈ l then 1 else 0
  | [], _, x => by simp
  | a :: as, hnd, x => by
    have hnd2 := List.nodup_cons.mp hnd
    rw [List.countP_cons, countP_self_eq_ite as hnd2.2 x]
    by_cases hxa : x = a
    · subst hxa
      rw [if_neg hnd2.1, if_pos (List.mem_cons_self _ _)]
      simp
    · have hiff : (x ∈ a :: as) ↔ (x ∈ as) := by
        rw [List.mem_cons]
        exact or_iff_right hxa
      rw [if_congr hiff rfl rfl]
      simp [hxa]

theorem countP_range_getD (vocab : List (List Char)) (hnd : vocab.Nodup)
    (x : List Char) :
    (List.range vocab.length).countP (fun j => decide (x = vocab.getD j []))
      = if x ∈ vocab then 1 else 0 := by
  have h1 : (List.range vocab.length).countP (fun j => decide (x = vocab.getD j []))
      = ((List.range vocab.length).map (fun j => vocab.getD j [])).countP
          (fun v => decide (x = v)) := by
    rw [List.countP_map]
    rfl
  rw [h1, map_getD_range vocab [] vocab.length rfl, countP_self_eq_ite vocab hnd x]
  by_cases hx : x ∈ vocab
  · rw [if_pos hx, if_pos hx]
  · rw [if_neg hx, if_neg hx]

theorem sum_map_ite_prop {α : Type} (p : α → Prop) [DecidablePred p] :
    ∀ l : List α,
      (l.map fun x => if p x then 1 else 0).sum = l.countP fun x => decide (p x)
  | [] => rfl
  | x :: xs => by
    simp only [List.map_cons, List.sum_cons, List.countP_cons, sum_map_ite_prop p xs]
    by_cases h : p x
    · simp only [if_pos h, decide_eq_true_eq, h]
      omega
    · simp [h]

theorem sum_count_filters (vocab : List (List Char)) (hnd : vocab.Nodup) :
    ∀ ws : List (List Char),
      ((List.range vocab.length).map
        (fun j => ((ws.filter fun w => canonical w = vocab.getD j []).length))).sum
      = ws.countP fun w => decide (canonical w ∈ vocab)
  | [] => by simp
  | w :: ws => by
    have hcomp : ∀ j ∈ List.range vocab.length,
        ((w :: ws).filter fun v => canonical v = vocab.getD j []).length
          = ((ws.filter fun v => canonical v = vocab.getD j []).length)
            + (if canonical w = vocab.getD j [] then 1 else 0) := by
      intro j _
      by_cases h : canonical w = vocab.getD j []
      · rw [List.filter_cons_of_pos (by simpa using h), if_pos h, List.length_cons]
      · rw [List.filter_cons_of_neg (by simpa using h), if_neg h]
        omega
    have hind : ((List.range vocab.length).map
        (fun j => if canonical w = vocab.getD j [] then 1 else 0)).sum
        = if canonical w ∈ vocab then 1 else 0 := by
      rw [sum_map_ite_prop (fun j => canonical w = vocab.getD j []) (List.range vocab.length)]
      exact countP_range_getD vocab hnd (canonical w)
    rw [List.map_congr_left hcomp, sum_map_add, sum_count_filters vocab hnd ws,
      hind, List.countP_cons]
    by_cases h : canonical w ∈ vocab
    · simp [h]
    · simp [h]

theorem sum_count_kmer_nat (vocab : List (List Char)) (hnd : vocab.Nodup)
    (k : Nat) (s : List Char) :
    (count_kmer incNat (List.replicate vocab.length 0) vocab k s).sum
      = (windows k s).countP fun w => decide (canonical w ∈ vocab) := by
  rw [count_kmer_eq incNat vocab hnd k s]
  have hpt : ∀ j ∈ List.range vocab.length,
      incNat^[((windows k s).filter fun w => canonical w = vocab.getD j []).length] 0
        = ((windows k s).filter fun w => canonical w = vocab.getD j []).length := by
    intro j _
    rw [iterate_incNat]
    omega
  rw [List.map_congr_left hpt]
  exact sum_count_filters vocab hnd (windows k s)

/-! ### The `uint16` array holds the true counts modulo `2^16` -/

theorem bump_u16_mod (h : List Nat) (i : Nat) :
    bump incU16 (h.map (· % 65536)) i = (bump incNat h i).map (· % 65536) := by
  unfold bump
  rw [List.map_set, getD_map_mod]
  congr 1
  unfold incU16 incNat
  omega

theorem foldl_u16_mod (vocab : List (List Char)) :
    ∀ (ws : List (List Char)) (h : List Nat),
      ws.foldl (count_step incU16 vocab) (h.map (· % 65536))
        = (ws.foldl (count_step incNat vocab) h).map (· % 65536)
  | [], h => rfl
  | w :: ws, h => by
    rw [List.foldl_cons, List.foldl_cons]
    have hstep : count_step incU16 vocab (h.map (· % 65536)) w
        = (count_step incNat vocab h w).map (· % 65536) := by
      by_cases hmem : canonical w ∈ vocab
      · rw [count_step_mem hmem, count_step_mem hmem, bump_u16_mod]
      · rw [count_step_not_mem hmem, count_step_not_mem hmem]
    rw [hstep, foldl_u16_mod vocab ws _]

theorem count_kmer_u16_eq_mod (vocab : List (List Char)) (k : Nat) (s : List Char) :
    count_kmer incU16 (List.replicate vocab.length 0) vocab k s
      = (count_kmer incNat (List.replicate vocab.length 0) vocab k s).map (· % 65536) := by
  have hz : (List.replicate vocab.length (0 : Nat)).map (· % 65536)
      = List.replicate vocab.length 0 := by
    rw [List.map_replicate]
  unfold count_kmer
  split
  · exact hz.symm
  · conv_lhs => rw [← hz]
    rw [foldl_u16_mod]

/-! ### Windows of mapped and reversed sequences -/

theorem windows_map (f : Char → Char) (k : Nat) (s : List Char) :
    windows k (s.map f) = (windows k s).map (List.map f) := by
  unfold windows
  rw [List.length_map]
  split
  · simp
  · rw [List.map_map]
    apply List.map_congr_left
    intro i _
    simp [Function.comp, List.map_take, List.map_drop]

theorem windows_reverse (k : Nat) (s : List Char) :
    windows k s.reverse = ((windows k s).map List.reverse).reverse := by
  by_cases hlt : s.length < k
  · simp [windows, hlt]
  · unfold windows
    rw [List.length_reverse, if_neg hlt, if_neg hlt, List.map_map]
    conv_rhs => rw [← List.map_reverse, List.range_eq_range', List.reverse_range',
      List.map_map]
    apply List.map_congr_left
    intro i hi
    rw [List.mem_range] at hi
    simp only [Function.comp]
    have hm : 0 + (s.length - k + 1) - 1 - i = s.length - k - i := by omega
    rw [hm]
    have h1 : (s.drop (s.length - k - i)).reverse
        = s.reverse.take (k + i) := by
      have h2 : s.length - (s.length - k - i) = k + i := by omega
      rw [List.reverse_drop, h2]
    rw [List.reverse_take, h1, List.length_drop]
    have h3 : s.length - (s.length - k - i) - k = i := by omega
    rw [h3, List.drop_take]
    have h4 : k + i - i = k := by omega
    rw [h4]

theorem windows_revComp (k : Nat) (s : List Char) :
    windows k (revComp s) = ((windows k s).map revComp).reverse := by
  unfold revComp
  rw [windows_reverse, windows_map, List.map_map]
  rfl

theorem filter_windows_revComp (k : Nat) (s v : List Char) :
    ((windows k (revComp s)).filter fun w => canonical w = v).length
      = ((windows k s).filter fun w => canonical w = v).length := by
  rw [windows_revComp, List.filter_reverse, List.length_reverse,
    ← List.countP_eq_length_filter, List.countP_map, ← List.countP_eq_length_filter]
  apply List.countP_congr
  intro w _
  simp only [Function.comp, decide_eq_true_eq]
  rw [canonical_revComp]

theorem count_kmer_revComp_eq (vocab : List (List Char)) (hnd : vocab.Nodup)
    (k : Nat) (s : List Char) :
    count_kmer incNat (List.replicate vocab.length 0) vocab k (revComp s)
      = count_kmer incNat (List.replicate vocab.length 0) vocab k s := by
  rw [count_kmer_eq _ _ hnd, count_kmer_eq _ _ hnd]
  apply List.map_congr_left
  intro j _
  rw [filter_windows_revComp]

/-! ### Poly-A sequences, for exercising the `uint16` wraparound -/

theorem make_kmer_list_one : make_kmer_list 1 = [['A'], ['C']] := by decide

theorem canonical_A : canonical ['A'] = ['A'] := by decide

theorem windows_one_replicate (n : Nat) :
    windows 1 (List.replicate n 'A') = List.replicate n ['A'] := by
  rcases n with _ | m
  · rfl
  · unfold windows
    rw [if_neg (by simp)]
    refine List.eq_replicate_iff.mpr ⟨by simp, ?_⟩
    intro w hw
    rcases List.mem_map.mp hw with ⟨i, hi, rfl⟩
    rw [List.mem_range] at hi
    rw [List.drop_replicate, List.take_replicate]
    have h1 : 1 ⊓ (m + 1 - i) = 1 := by
      simp only [List.length_replicate] at hi
      omega
    rw [h1]
    rfl

theorem count_polyA_cells (inc : Nat → Nat) (n : Nat) :
    count_kmer inc (List.replicate 2 0) (make_kmer_list 1) 1 (List.replicate n 'A')
      = [inc^[n] 0, 0] := by
  have h2 : (2 : Nat) = (make_kmer_list 1).length := by rw [make_kmer_list_one]; rfl
  rw [h2, count_kmer_eq inc _ (nodup_make_kmer_list 1) 1 _, windows_one_replicate n,
    make_kmer_list_one]
  have hr : List.range ([['A'], ['C']] : List (List Char)).length = [0, 1] := by decide
  rw [hr]
  simp only [List.map_cons, List.map_nil]
  congr 1
  · rw [List.filter_replicate]
    simp [canonical_A]
  · congr 1
    rw [List.filter_replicate]
    simp [canonical_A]

/-! ### Grouping, sampling and summary-key lemmas -/

theorem mem_group_ids {df : List ClusterRow} {c : Int} :
    c ∈ group_ids df ↔ c ∈ df.map (·.hdbscan_id) := by
  unfold group_ids
  rw [(List.perm_insertionSort _ _).mem_iff, List.mem_dedup]

theorem nodup_group_ids (df : List ClusterRow) : (group_ids df).Nodup :=
  ((List.perm_insertionSort _ _).nodup_iff).mpr (List.nodup_dedup _)

theorem mem_members {df : List ClusterRow} {c : Int} {r : ClusterRow} :
    r ∈ members df c ↔ (r ∈ df ∧ r.hdbscan_id = c) := by
  unfold members
  rw [List.mem_filter]
  simp

theorem members_ne_nil {df : List ClusterRow} {c : Int}
    (hc : c ∈ df.map (·.hdbscan_id)) : members df c ≠ [] := by
  rcases List.mem_map.mp hc with ⟨r, hr, hrc⟩
  intro hnil
  have hmem : r ∈ members df c := mem_members.mpr ⟨hr, hrc⟩
  rw [hnil] at hmem
  exact absurd hmem (by simp)

theorem _sample_group_length (sampler : List ClusterRow → Nat → List ClusterRow)
    (sample_size : Nat) (group : List ClusterRow)
    (hs : 1 ≤ sample_size)
    (hlen : ∀ g n, n ≤ g.length → (sampler g n).length = n)
    (hne : group ≠ []) :
    (_sample_group sampler sample_size group).length
      = if group.length < sample_size then 1 else sample_size := by
  unfold _sample_group
  have hgl : 1 ≤ group.length := List.length_pos.mpr hne
  by_cases h : group.length < sample_size
  · rw [if_pos h, hlen group 1 hgl]
  · rw [if_neg h, hlen group sample_size (by omega)]

theorem mem_sampled_reads {sampler : List ClusterRow → Nat → List ClusterRow}
    {sample_size : Nat} {df : List ClusterRow} {r : ClusterRow} :
    r ∈ sampled_reads sampler sample_size df
      ↔ ∃ c ∈ group_ids df, r ∈ _sample_group sampler sample_size (members df c) := by
  unfold sampled_reads
  rw [List.mem_flatMap]

theorem sampled_reads_subset {sampler : List ClusterRow → Nat → List ClusterRow}
    {sample_size : Nat} {df : List ClusterRow}
    (hsub : ∀ g n, ∀ r ∈ sampler g n, r ∈ g) :
    ∀ r ∈ sampled_reads sampler sample_size df, r ∈ df := by
  intro r hr
  rcases mem_sampled_reads.mp hr with ⟨c, _, hrs⟩
  exact (mem_members.mp (hsub _ _ r hrs)).1

theorem group_taxids_fst_sublist (f : Int → Option String) (l : List Int) :
    ((l.filterMap fun c => (f c).map fun t => (c, t)).map (·.1)).Sublist l := by
  induction l with
  | nil => simp
  | cons c cs ih =>
    rw [List.filterMap_cons]
    cases hf : f c
    · simpa using ih.cons c
    · simpa using ih.cons₂ c

theorem nodup_group_taxids_fst (sampler : List ClusterRow → Nat → List ClusterRow)
    (sample_size : Nat) (df : List ClusterRow) (m : ScoreMatrix) :
    ((group_taxids sampler sample_size df m).map (·.1)).Nodup := by
  unfold group_taxids
  exact (group_taxids_fst_sublist _ _).nodup
    (nodup_group_ids (sampled_reads sampler sample_size df))

theorem build_cluster_summary_ok_eq
    {sampler : List ClusterRow → Nat → List ClusterRow}
    {nameFn : List String → List (String × String)} {sample_size : Nat}
    {df : List ClusterRow} {m : ScoreMatrix} {out : List SummaryRow}
    (h : build_cluster_summary sampler nameFn sample_size df m = Except.ok out) :
    out = (group_taxids sampler sample_size df m).map fun p =>
      ⟨p.1, p.2,
        ((nameFn ((group_taxids sampler sample_size df m).map (·.2))).find?
            (fun q => q.1 = p.2)).map (·.2)⟩ := by
  unfold build_cluster_summary at h
  split at h
  · exact absurd h (by simp)
  · split at h
    · exact absurd h (by simp)
    · exact (Except.ok.inj h).symm

theorem summary_ids_nodup
    {sampler : List ClusterRow → Nat → List ClusterRow}
    {nameFn : List String → List (String × String)} {sample_size : Nat}
    {df : List ClusterRow} {m : ScoreMatrix} {out : List SummaryRow}
    (h : build_cluster_summary sampler nameFn sample_size df m = Except.ok out) :
    (out.map (·.hdbscan_id)).Nodup := by
  rw [build_cluster_summary_ok_eq h, List.map_map]
  exact nodup_group_taxids_fst sampler sample_size df m

/-! ### The left merge under unique summary keys -/

theorem merge_matches_cases :
    ∀ (right : List SummaryRow), (right.map (·.hdbscan_id)).Nodup → ∀ c : Int,
      merge_matches right c = []
        ∨ ∃ s, s ∈ right ∧ s.hdbscan_id = c ∧ merge_matches right c = [s]
  | [], _, c => Or.inl rfl
  | a :: as, hnd, c => by
    rw [List.map_cons] at hnd
    have hnd2 := List.nodup_cons.mp hnd
    by_cases hac : a.hdbscan_id = c
    · have hrest : as.filter (fun s => decide (s.hdbscan_id = c)) = [] := by
        apply List.filter_eq_nil_iff.mpr
        intro s hsmem
        simp only [decide_eq_true_eq]
        intro hsc
        exact hnd2.1 (List.mem_map.mpr ⟨s, hsmem, by rw [hsc, hac]⟩)
      refine Or.inr ⟨a, List.mem_cons_self a as, hac, ?_⟩
      unfold merge_matches
      rw [List.filter_cons_of_pos (by simpa using hac), hrest]
    · rcases merge_matches_cases as hnd2.2 c with hmc | ⟨s, hs1, hs2, hs3⟩
      · left
        unfold merge_matches at hmc ⊢
        rw [List.filter_cons_of_neg (by simpa using hac), hmc]
      · refine Or.inr ⟨s, List.mem_cons_of_mem a hs1, hs2, ?_⟩
        unfold merge_matches at hs3 ⊢
        rw [List.filter_cons_of_neg (by simpa using hac), hs3]

theorem merge_left_cons (r : ClusterRow) (L : List ClusterRow)
    (right : List SummaryRow) :
    merge_left (r :: L) right
      = (if (merge_matches right r.hdbscan_id).isEmpty then [⟨r, none, none⟩]
          else (merge_matches right r.hdbscan_id).map fun s => ⟨r, some s.TaxID, s.name⟩)
        ++ merge_left L right := by
  unfold merge_left
  rw [List.flatMap_cons]

/-- The row-by-row shape of the left merge when the right side's keys are
unique: one output row per left row, base unchanged, the added columns
present exactly when the key has a summary row. -/
theorem merge_left_forall₂ (right : List SummaryRow)
    (hnd : (right.map (·.hdbscan_id)).Nodup) :
    ∀ left : List ClusterRow,
      List.Forall₂ (fun (a : HydratedRow) (r : ClusterRow) =>
        a.base = r
        ∧ (r.hdbscan_id ∉ right.map (·.hdbscan_id) → (a.TaxID = none ∧ a.name = none))
        ∧ (r.hdbscan_id ∈ right.map (·.hdbscan_id) →
            ∃ s, s ∈ right ∧ s.hdbscan_id = r.hdbscan_id
              ∧ a.TaxID = some s.TaxID ∧ a.name = s.name))
        (merge_left left right) left
  | [] => List.Forall₂.nil
  | r :: L => by
    rw [merge_left_cons]
    rcases merge_matches_cases right hnd r.hdbscan_id with hmc | ⟨s, hs1, hs2, hs3⟩
    · rw [hmc]
      simp only [List.isEmpty_nil, if_true, List.singleton_append]
      refine List.Forall₂.cons ⟨rfl, fun _ => ⟨rfl, rfl⟩, ?_⟩
        (merge_left_forall₂ right hnd L)
      intro hmem
      rcases List.mem_map.mp hmem with ⟨t, htr, htc⟩
      have htm : t ∈ merge_matches right r.hdbscan_id := by
        unfold merge_matches
        rw [List.mem_filter]
        exact ⟨htr, by simpa using htc⟩
      rw [hmc] at htm
      exact absurd htm (by simp)
    · rw [hs3]
      simp only [List.isEmpty_cons, Bool.false_eq_true, if_false, List.map_cons,
        List.map_nil, List.singleton_append]
      refine List.Forall₂.cons ⟨rfl, ?_, ?_⟩ (merge_left_forall₂ right hnd L)
      · intro hnm
        exact absurd (List.mem_map.mpr ⟨s, hs1, hs2⟩) hnm
      · intro _
        exact ⟨s, hs1, hs2, rfl, rfl⟩

/-! ### A usable read forces a winner for its cluster -/

theorem dist_slice_ne_nil_of_usable {m : ScoreMatrix} {ids : List String}
    {id : String} (hid : id ∈ ids) (hu : usable_row m id = true) :
    dist_slice m ids ≠ [] := by
  unfold usable_row at hu
  split at hu
  · exact absurd hu (by simp)
  · rename_i p hf
    have hall : p.2.all (·.isNone) = false := by
      cases h : p.2.all (·.isNone)
      · rfl
      · rw [h] at hu; exact absurd hu (by simp)
    have hmem : p.2 ∈ dist_slice m ids := by
      unfold dist_slice
      refine List.mem_filterMap.mpr ⟨id, hid, ?_⟩
      simp only [hf, hall]
      simp
    exact List.ne_nil_of_mem hmem

theorem colSums_ne_nil {m : ScoreMatrix} (hcols : m.cols ≠ [])
    (kept : List (List (Option ℚ))) : colSums m.cols.length kept ≠ [] := by
  unfold colSums
  intro h
  have h1 := congrArg List.length h
  simp only [List.length_map, List.length_range, List.length_nil] at h1
  exact hcols (List.length_eq_zero.mp h1)

theorem winner_taxid_isSome {m : ScoreMatrix} {ids : List String}
    (hne : dist_slice m ids ≠ []) (hcols : m.cols ≠ []) :
    ∃ t, winner_taxid m ids = some t := by
  unfold winner_taxid
  rw [if_neg (by
    simp only [List.isEmpty_iff]
    intro hor
    rcases hor with h | h
    · exact hne h
    · exact hcols h)]
  cases hcs : colSums m.cols.length (dist_slice m ids) with
  | nil => exact absurd hcs (colSums_ne_nil hcols _)
  | cons x xs => exact ⟨_, rfl⟩

/-- Cluster-level voting performs no noise filtering: any label present in
the table — including the noise label `-1` — receives a summary row as soon
as its members' evidence is usable.  Quantified over every row selection
satisfying the sampling contract. -/
theorem build_cluster_summary_includes_cluster
    (sampler : List ClusterRow → Nat → List ClusterRow)
    (nameFn : List String → List (String × String)) (sample_size : Nat)
    (df : List ClusterRow) (m : ScoreMatrix) (c : Int)
    (hss : 1 ≤ sample_size)
    (hlen : ∀ g n, n ≤ g.length → (sampler g n).length = n)
    (hsub : ∀ g n, ∀ r ∈ sampler g n, r ∈ g)
    (hc : c ∈ df.map (·.hdbscan_id))
    (hcols : m.cols ≠ [])
    (husable : ∀ r ∈ df, r.hdbscan_id = c → usable_row m r.seq_name = true) :
    ∃ out, build_cluster_summary sampler nameFn sample_size df m = Except.ok out
      ∧ c ∈ out.map (·.hdbscan_id) := by
  have hcg : c ∈ group_ids df := mem_group_ids.mpr hc
  have hmem_ne : members df c ≠ [] := members_ne_nil hc
  have hslen : (_sample_group sampler sample_size (members df c)).length
      = if (members df c).length < sample_size then 1 else sample_size :=
    _sample_group_length sampler sample_size (members df c) hss hlen hmem_ne
  have hsne : _sample_group sampler sample_size (members df c) ≠ [] := by
    intro hnil
    rw [hnil] at hslen
    simp only [List.length_nil] at hslen
    by_cases h : (members df c).length < sample_size
    · rw [if_pos h] at hslen; omega
    · rw [if_neg h] at hslen; omega
  rcases List.exists_mem_of_ne_nil _ hsne with ⟨r0, hr0⟩
  have hr0m : r0 ∈ members df c := hsub _ _ r0 (by
    unfold _sample_group at hr0
    exact hr0)
  have hr0df := mem_members.mp hr0m
  have hr0s : r0 ∈ sampled_reads sampler sample_size df :=
    mem_sampled_reads.mpr ⟨c, hcg, hr0⟩
  have hcg2 : c ∈ group_ids (sampled_reads sampler sample_size df) :=
    mem_group_ids.mpr (List.mem_map.mpr ⟨r0, hr0s, hr0df.2⟩)
  have hr0sm : r0 ∈ members (sampled_reads sampler sample_size df) c :=
    mem_members.mpr ⟨hr0s, hr0df.2⟩
  have hidmem : r0.seq_name
      ∈ (members (sampled_reads sampler sample_size df) c).map (·.seq_name) :=
    List.mem_map.mpr ⟨r0, hr0sm, rfl⟩
  have hds := dist_slice_ne_nil_of_usable hidmem (husable r0 hr0df.1 hr0df.2)
  rcases winner_taxid_isSome hds hcols with ⟨t, hw⟩
  have hpair : (c, t) ∈ group_taxids sampler sample_size df m := by
    unfold group_taxids
    refine List.mem_filterMap.mpr ⟨c, hcg2, ?_⟩
    rw [hw]
    rfl
  have hgne : group_taxids sampler sample_size df m ≠ [] := List.ne_nil_of_mem hpair
  refine ⟨(group_taxids sampler sample_size df m).map fun p =>
      ⟨p.1, p.2,
        ((nameFn ((group_taxids sampler sample_size df m).map (·.2))).find?
            (fun q => q.1 = p.2)).map (·.2)⟩, ?_, ?_⟩
  · unfold build_cluster_summary
    rw [if_neg (by
      simp only [List.isEmpty_iff]
      exact List.ne_nil_of_mem hr0s), if_neg (by simp only [List.isEmpty_iff]; exact hgne)]
  · rw [List.map_map]
    exact List.mem_map.mpr ⟨(c, t), hpair, rfl⟩

/-! ### The per-read maximum scan, characterized -/

theorem argmaxOptFrom_some_ne_none :
    ∀ (cells : List (Option ℚ)) (b : Nat × ℚ) (i : Nat),
      argmaxOptFrom (some b) i cells ≠ none
  | [], b, i => by simp [argmaxOptFrom]
  | none :: xs, b, i => argmaxOptFrom_some_ne_none xs b (i + 1)
  | some v :: xs, ⟨bi, bv⟩, i => by
    simp only [argmaxOptFrom]
    split
    · exact argmaxOptFrom_some_ne_none xs (i, v) (i + 1)
    · exact argmaxOptFrom_some_ne_none xs (bi, bv) (i + 1)

theorem argmaxOptFrom_none_iff :
    ∀ (cells : List (Option ℚ)) (i : Nat),
      argmaxOptFrom none i cells = none ↔ ∀ x ∈ cells, x = none
  | [], i => by simp [argmaxOptFrom]
  | none :: xs, i => by
    simp only [argmaxOptFrom]
    rw [argmaxOptFrom_none_iff xs (i + 1)]
    constructor
    · intro h x hx
      rcases List.mem_cons.mp hx with rfl | hx2
      · rfl
      · exact h x hx2
    · intro h x hx
      exact h x (List.mem_cons_of_mem _ hx)
  | some v :: xs, i => by
    constructor
    · intro h
      exact absurd h (by
        simp only [argmaxOptFrom]
        exact argmaxOptFrom_some_ne_none xs (i, v) (i + 1))
    · intro h
      exact absurd (h (some v) (List.mem_cons_self _ _)) (by simp)

theorem argmaxOptFrom_best_le :
    ∀ (cells : List (Option ℚ)) (bi : Nat) (bv : ℚ) (i j : Nat) (v : ℚ),
      argmaxOptFrom (some (bi, bv)) i cells = some (j, v) → bv ≤ v
  | [], bi, bv, i, j, v => by
    simp only [argmaxOptFrom]
    intro h
    have h2 := Option.some.inj h
    have h3 : bv = v := congrArg Prod.snd h2
    rw [h3]
  | none :: xs, bi, bv, i, j, v => fun h =>
      argmaxOptFrom_best_le xs bi bv (i + 1) j v h
  | some y :: xs, bi, bv, i, j, v => by
    simp only [argmaxOptFrom]
    split
    · rename_i hlt
      intro h
      exact le_trans (le_of_lt hlt) (argmaxOptFrom_best_le xs i y (i + 1) j v h)
    · intro h
      exact argmaxOptFrom_best_le xs bi bv (i + 1) j v h

theorem argmaxOptFrom_bounds :
    ∀ (cells : List (Option ℚ)) (best : Option (Nat × ℚ)) (i j : Nat) (v : ℚ),
      argmaxOptFrom best i cells = some (j, v) →
      ∀ q ∈ cells, ∀ x : ℚ, q = some x → x ≤ v
  | [], best, i, j, v => by
    intro _ q hq
    exact absurd hq (by simp)
  | none :: xs, best, i, j, v => by
    intro h q hq x hqx
    rcases List.mem_cons.mp hq with rfl | hq2
    · exact absurd hqx (by simp)
    · exact argmaxOptFrom_bounds xs best (i + 1) j v h q hq2 x hqx
  | some y :: xs, best, i, j, v => by
    intro h q hq x hqx
    rcases List.mem_cons.mp hq with rfl | hq2
    · have hxy : y = x := Option.some.inj hqx
      subst hxy
      cases best with
      | none =>
        simp only [argmaxOptFrom] at h
        exact argmaxOptFrom_best_le xs i y (i + 1) j v h
      | some b =>
        rcases b with ⟨bi, bv⟩
        simp only [argmaxOptFrom] at h
        split at h
        · exact argmaxOptFrom_best_le xs i y (i + 1) j v h
        · rename_i hnlt
          exact le_trans (not_lt.mp hnlt) (argmaxOptFrom_best_le xs bi bv (i + 1) j v h)
    · cases best with
      | none =>
        simp only [argmaxOptFrom] at h
        exact argmaxOptFrom_bounds xs _ (i + 1) j v h q hq2 x hqx
      | some b =>
        rcases b with ⟨bi, bv⟩
        simp only [argmaxOptFrom] at h
        split at h
        · exact argmaxOptFrom_bounds xs _ (i + 1) j v h q hq2 x hqx
        · exact argmaxOptFrom_bounds xs _ (i + 1) j v h q hq2 x hqx

theorem argmaxOptFrom_at :
    ∀ (cells : List (Option ℚ)) (best : Option (Nat × ℚ)) (i j : Nat) (v : ℚ),
      argmaxOptFrom best i cells = some (j, v) →
      best = some (j, v) ∨ (i ≤ j ∧ cells.getD (j - i) none = some v)
  | [], best, i, j, v => by
    simp only [argmaxOptFrom]
    exact fun h => Or.inl h
  | none :: xs, best, i, j, v => by
    simp only [argmaxOptFrom]
    intro h
    rcases argmaxOptFrom_at xs best (i + 1) j v h with h1 | ⟨h2, h3⟩
    · exact Or.inl h1
    · refine Or.inr ⟨by omega, ?_⟩
      have hji : j - i = (j - (i + 1)) + 1 := by omega
      rw [hji, getD_cons_succ]
      exact h3
  | some y :: xs, best, i, j, v => by
    intro h
    have hnew : argmaxOptFrom (some (i, y)) (i + 1) xs = some (j, v) →
        i ≤ j ∧ (some y :: xs).getD (j - i) none = some v := by
      intro h2
      rcases argmaxOptFrom_at xs (some (i, y)) (i + 1) j v h2 with h3 | ⟨h4, h5⟩
      · have h6 := Option.some.inj h3
        have hij : i = j := congrArg Prod.fst h6
        have hyv : y = v := congrArg Prod.snd h6
        refine ⟨by omega, ?_⟩
        have hz : j - i = 0 := by omega
        rw [hz, hyv]
        rfl
      · refine ⟨by omega, ?_⟩
        have hji : j - i = (j - (i + 1)) + 1 := by omega
        rw [hji, getD_cons_succ]
        exact h5
    cases best with
    | none =>
      simp only [argmaxOptFrom] at h
      exact Or.inr (hnew h)
    | some b =>
      rcases b with ⟨bi, bv⟩
      simp only [argmaxOptFrom] at h
      split at h
      · exact Or.inr (hnew h)
      · rcases argmaxOptFrom_at xs (some (bi, bv)) (i + 1) j v h with h1 | ⟨h2, h3⟩
        · exact Or.inl h1
        · refine Or.inr ⟨by omega, ?_⟩
          have hji : j - i = (j - (i + 1)) + 1 := by omega
          rw [hji, getD_cons_succ]
          exact h3

theorem row_winner_none_iff (cols : List String) (cells : List (Option ℚ)) :
    row_winner cols cells = none ↔ ∀ x ∈ cells, x = none := by
  unfold row_winner
  rw [Option.map_eq_none']
  exact argmaxOptFrom_none_iff cells 0

theorem row_winner_spec {cols : List String} {cells : List (Option ℚ)}
    {t : String} {v : ℚ} (h : row_winner cols cells = some (t, v)) :
    ∃ j, cells.getD j none = some v ∧ t = cols.getD j ""
      ∧ ∀ q ∈ cells, ∀ x : ℚ, q = some x → x ≤ v := by
  unfold row_winner at h
  rcases Option.map_eq_some'.mp h with ⟨⟨j, v2⟩, ha, hb⟩
  have ht : cols.getD j "" = t := congrArg Prod.fst hb
  have hv : v2 = v := congrArg Prod.snd hb
  subst hv
  rcases argmaxOptFrom_at cells none 0 j v2 ha with h1 | ⟨_, h2⟩
  · exact absurd h1 (by simp)
  · exact ⟨j, by simpa using h2, ht.symm, argmaxOptFrom_bounds cells none 0 j v2 ha⟩

theorem readWinner_spec {m : ScoreMatrix} {id : String} {t : String} {v : ℚ}
    (h : readWinner m id = some (t, v)) :
    ∃ p, m.rows.find? (fun q => q.1 = id) = some p
      ∧ ∃ j, p.2.getD j none = some v ∧ t = m.cols.getD j ""
        ∧ ∀ q ∈ p.2, ∀ x : ℚ, q = some x → x ≤ v := by
  unfold readWinner at h
  split at h
  · exact absurd h (by simp)
  · rename_i p hf
    exact ⟨p, hf, row_winner_spec h⟩

theorem assigned_winners_eq_nil_iff (df : List ClusterRow) (m : ScoreMatrix) :
    assigned_winners df m = [] ↔ ∀ r ∈ df, readWinner m r.seq_name = none := by
  unfold assigned_winners
  rw [List.filterMap_eq_nil]
  constructor
  · intro h r hr
    exact Option.map_eq_none'.mp (h r hr)
  · intro h r hr
    exact Option.map_eq_none'.mpr (h r hr)

/-! ## The claims -/

/-- C1, counterexample: in `_sample_group`, a cluster with 2 members and
`sample_size = 5` is sampled down to a single member, not to all of its
members, so the column sums aggregate over one row (`5`), not over every
member row present in the score matrix (`8`). -/
theorem small_cluster_sample_not_all_members :
    (members dfPair 0).length = 2
    ∧ 2 < 5
    ∧ (sampled_reads takeSampler 5 dfPair).length = 1
    ∧ (1 : Nat) ≠ 2
    ∧ colSums 1 (dist_slice mPair
        ((sampled_reads takeSampler 5 dfPair).map (·.seq_name))) = [5]
    ∧ colSums 1 (dist_slice mPair ((members dfPair 0).map (·.seq_name))) = [8] := by
  refine ⟨by decide, by decide, by decide, by decide, by decide, by decide⟩

/-- C1, amended: for every cluster label present in the table, the sample
drawn by `_sample_group` has exactly `1` member when the cluster is smaller
than `sampleSize` (not all of its members), and exactly `sampleSize`
members otherwise — for any row selection satisfying the sampling
contract. -/
theorem small_cluster_sample_is_singleton
    (sampler : List ClusterRow → Nat → List ClusterRow) (sample_size : Nat)
    (df : List ClusterRow) (c : Int)
    (hss : 1 ≤ sample_size)
    (hlen : ∀ g n, n ≤ g.length → (sampler g n).length = n)
    (hc : c ∈ df.map (·.hdbscan_id)) :
    (_sample_group sampler sample_size (members df c)).length
      = if (members df c).length < sample_size then 1 else sample_size :=
  _sample_group_length sampler sample_size (members df c) hss hlen (members_ne_nil hc)

/-- C1, witness: the amended statement evaluated on `dfPair` with the
take-first selection. -/
theorem small_cluster_sample_is_singleton_witness :
    1 ≤ 5
    ∧ (0 : Int) ∈ dfPair.map (·.hdbscan_id)
    ∧ (_sample_group takeSampler 5 (members dfPair 0)).length
        = if (members dfPair 0).length < 5 then 1 else 5 :=
  ⟨by decide, by decide,
    small_cluster_sample_is_singleton takeSampler 5 dfPair 0 (by decide)
      (fun g n h => by
        unfold takeSampler
        rw [List.length_take]
        omega)
      (by decide)⟩

/-- C2: per-read direct assignment (modelled from the spec; the strategy has
no implementation under `src/`).  `Unassignable` is raised exactly when no
row of the assignment table has a usable score cell; in a successful run
every output row carries, as its winner, a usable cell of that read's
score-matrix row that is maximal among the row's usable cells, recorded
with that score as confidence; every read with a usable cell appears, and
reads without one are excluded without error. -/
theorem assign_reads_per_read_spec (nameFn : List String → List (String × String))
    (df : List ClusterRow) (m : ScoreMatrix) :
    ((assign_reads nameFn df m = Except.error "Unassignable")
        ↔ ∀ r ∈ df, readWinner m r.seq_name = none)
    ∧ (∀ out, assign_reads nameFn df m = Except.ok out →
        ((∀ e ∈ out, ∃ r, r ∈ df ∧ e.seq_name = r.seq_name
            ∧ ∃ p, m.rows.find? (fun q => q.1 = r.seq_name) = some p
              ∧ ∃ j, p.2.getD j none = some e.confidence
                ∧ e.TaxID = m.cols.getD j ""
                ∧ ∀ q ∈ p.2, ∀ x : ℚ, q = some x → x ≤ e.confidence)
          ∧ (∀ r ∈ df, readWinner m r.seq_name ≠ none →
              ∃ e, e ∈ out ∧ e.seq_name = r.seq_name))) := by
  constructor
  · constructor
    · intro herr
      unfold assign_reads at herr
      split at herr
      · rename_i hemp
        exact (assigned_winners_eq_nil_iff df m).mp (List.isEmpty_iff.mp hemp)
      · exact absurd herr (by simp)
    · intro hall
      unfold assign_reads
      rw [if_pos (List.isEmpty_iff.mpr ((assigned_winners_eq_nil_iff df m).mpr hall))]
  · intro out hok
    unfold assign_reads at hok
    split at hok
    · exact absurd hok (by simp)
    · have hout := Except.ok.inj hok
      constructor
      · intro e he
        rw [← hout] at he
        rcases List.mem_map.mp he with ⟨a, ha, hae⟩
        unfold assigned_winners at ha
        rcases List.mem_filterMap.mp ha with ⟨r, hr, hfa⟩
        rcases Option.map_eq_some'.mp hfa with ⟨w, hw, hwa⟩
        refine ⟨r, hr, ?_⟩
        have he1 : e.seq_name = a.1 := by rw [← hae]
        have he2 : e.TaxID = a.2.1 := by rw [← hae]
        have he3 : e.confidence = a.2.2 := by rw [← hae]
        have ha1 : a.1 = r.seq_name := by rw [← hwa]
        have ha2 : a.2.1 = w.1 := by rw [← hwa]
        have ha3 : a.2.2 = w.2 := by rw [← hwa]
        have hwin : readWinner m r.seq_name = some (e.TaxID, e.confidence) := by
          rw [he2, he3, ha2, ha3, hw]
        rcases readWinner_spec hwin with ⟨p, hf, j, hcell, hcol, hbound⟩
        exact ⟨by rw [he1, ha1], p, hf, j, hcell, hcol, hbound⟩
      · intro r hr hne
        cases hw : readWinner m r.seq_name with
        | none => exact absurd hw hne
        | some w =>
          have ha : (r.seq_name, w.1, w.2) ∈ assigned_winners df m := by
            unfold assigned_winners
            refine List.mem_filterMap.mpr ⟨r, hr, ?_⟩
            rw [hw]
            rfl
          refine ⟨⟨r.seq_name, w.1,
              ((nameFn ((assigned_winners df m).map fun b => b.2.1).dedup).find?
                  (fun q => q.1 = w.1)).map (·.2), w.2⟩, ?_, rfl⟩
          rw [← hout]
          exact List.mem_map.mpr ⟨(r.seq_name, w.1, w.2), ha, rfl⟩

/-- C3, counterexample: `count_sequence_kmer` allocates the count vector as
`np.uint16`; on a poly-A sequence with 65536 occurrences of the canonical
1-mer `A`, the stored count is `0` while the true number of occurrences is
`65536` — the count silently overflows the 16-bit width. -/
theorem count_kmer_uint16_wraps :
    (count_kmer incNat (List.replicate 2 0) (make_kmer_list 1) 1
        (List.replicate 65536 'A')).getD 0 0 = 65536
    ∧ (count_kmer incU16 (List.replicate 2 0) (make_kmer_list 1) 1
        (List.replicate 65536 'A')).getD 0 0 = 0
    ∧ (0 : Nat) ≠ 65536 := by
  refine ⟨?_, ?_, by decide⟩
  · rw [count_polyA_cells incNat 65536, iterate_incNat]
    rfl
  · rw [count_polyA_cells incU16 65536, iterate_incU16 65536 0 (by omega)]
    rfl

/-- C3, amended: each stored `uint16` cell equals the true occurrence count
of its canonical k-mer reduced modulo `2^16`, so any count reaching `65536`
wraps silently rather than being stored faithfully. -/
theorem count_kmer_uint16_stores_mod (k : Nat) (s : List Char) :
    count_kmer incU16 (List.replicate (make_kmer_list k).length 0)
        (make_kmer_list k) k s
      = (count_kmer incNat (List.replicate (make_kmer_list k).length 0)
          (make_kmer_list k) k s).map (· % 65536) :=
  count_kmer_u16_eq_mod (make_kmer_list k) k s

/-- C4, counterexample: `build_cluster_summary` groups on every
`hdbscan_id` value with no filtering and no inclusion switch; on an input
whose only read carries the noise label `-1`, the summary contains a row for
cluster `-1`. -/
theorem noise_label_voted_row :
    dfNoise.map (·.hdbscan_id) = [-1]
    ∧ build_cluster_summary takeSampler noNames 5 dfNoise mNoise
        = Except.ok [⟨-1, "5", none⟩]
    ∧ ([(⟨-1, "5", none⟩ : SummaryRow)].map (·.hdbscan_id)) = [-1] := by
  refine ⟨by decide, by decide, by decide⟩

/-- C4, amended: cluster-level voting never excludes the noise label and
offers no option to request or prevent its inclusion: whenever reads labeled
`-1` are present and their score rows are usable (and the matrix has at
least one column), the summary contains a row with cluster label `-1`. -/
theorem noise_label_included
    (sampler : List ClusterRow → Nat → List ClusterRow)
    (nameFn : List String → List (String × String)) (sample_size : Nat)
    (df : List ClusterRow) (m : ScoreMatrix)
    (hss : 1 ≤ sample_size)
    (hlen : ∀ g n, n ≤ g.length → (sampler g n).length = n)
    (hsub : ∀ g n, ∀ r ∈ sampler g n, r ∈ g)
    (hc : (-1 : Int) ∈ df.map (·.hdbscan_id))
    (hcols : m.cols ≠ [])
    (husable : ∀ r ∈ df, r.hdbscan_id = -1 → usable_row m r.seq_name = true) :
    ∃ out, build_cluster_summary sampler nameFn sample_size df m = Except.ok out
      ∧ (-1 : Int) ∈ out.map (·.hdbscan_id) :=
  build_cluster_summary_includes_cluster sampler nameFn sample_size df m (-1)
    hss hlen hsub hc hcols husable

/-- C4, witness: the amended statement evaluated on `dfNoise`. -/
theorem noise_label_included_witness :
    ∃ out, build_cluster_summary takeSampler noNames 5 dfNoise mNoise
        = Except.ok out
      ∧ (-1 : Int) ∈ out.map (·.hdbscan_id) :=
  noise_label_included takeSampler noNames 5 dfNoise mNoise (by decide)
    (fun g n h => by
      unfold takeSampler
      rw [List.length_take]
      omega)
    (fun g n r hr => List.mem_of_mem_take hr)
    (by decide) (by decide) (by decide)

/-- C5, counterexample: the claimed sum equality is stated of the program's
stored feature vector, which is `np.uint16`; on a poly-A sequence of length
65536 with `k = 1` every window is clean, yet the stored vector wraps to
all zeros: its sum is `0` while the number of all-ACGT windows is `65536`. -/
theorem count_kmer_uint16_sum_not_window_count :
    (count_kmer incU16 (List.replicate 2 0) (make_kmer_list 1) 1
        (List.replicate 65536 'A')).sum = 0
    ∧ (windows 1 (List.replicate 65536 'A')).countP (fun w => w.all isACGT) = 65536
    ∧ (0 : Nat) ≠ 65536 := by
  refine ⟨?_, ?_, by decide⟩
  · rw [count_polyA_cells incU16 65536, iterate_incU16 65536 0 (by omega)]
    rfl
  · rw [windows_one_replicate, List.countP_eq_length_filter, List.filter_replicate,
      if_pos (by decide), List.length_replicate]

/-- C5, amended: for every sequence and every `k ≥ 1`, the counting loop
skips, without error, exactly the windows containing a symbol outside
`{A, C, G, T}`: each stored `uint16` cell equals the true occurrence count
of its canonical k-mer reduced modulo `2^16`, and the true counts sum to
the number of length-`k` windows entirely over the alphabet — so the sum of
the stored feature vector equals that window count whenever no cell's true
count reaches `2^16`.  A sequence shorter than `k` (in particular the empty
sequence) yields the all-zero vector. -/
theorem count_kmer_uint16_skips_exactly_nonACGT (s : List Char) (k : Nat)
    (hk : 1 ≤ k) :
    count_kmer incU16 (List.replicate (make_kmer_list k).length 0)
        (make_kmer_list k) k s
      = (count_kmer incNat (List.replicate (make_kmer_list k).length 0)
          (make_kmer_list k) k s).map (· % 65536)
    ∧ (count_kmer incNat (List.replicate (make_kmer_list k).length 0)
        (make_kmer_list k) k s).sum
      = (windows k s).countP (fun w => w.all isACGT)
    ∧ ((∀ x ∈ count_kmer incNat (List.replicate (make_kmer_list k).length 0)
          (make_kmer_list k) k s, x < 65536) →
        (count_kmer incU16 (List.replicate (make_kmer_list k).length 0)
            (make_kmer_list k) k s).sum
          = (windows k s).countP (fun w => w.all isACGT))
    ∧ (s.length < k →
        count_kmer incU16 (List.replicate (make_kmer_list k).length 0)
            (make_kmer_list k) k s
          = List.replicate (make_kmer_list k).length 0) := by
  have hmod := count_kmer_u16_eq_mod (make_kmer_list k) k s
  have hsum : (count_kmer incNat (List.replicate (make_kmer_list k).length 0)
      (make_kmer_list k) k s).sum
      = (windows k s).countP (fun w => w.all isACGT) := by
    rw [sum_count_kmer_nat _ (nodup_make_kmer_list k)]
    apply List.countP_congr
    intro w hw
    simp only [decide_eq_true_eq]
    exact canonical_window_mem_iff hw
  refine ⟨hmod, hsum, ?_, ?_⟩
  · intro hnw
    rw [hmod]
    have hid : (count_kmer incNat (List.replicate (make_kmer_list k).length 0)
        (make_kmer_list k) k s).map (· % 65536)
        = (count_kmer incNat (List.replicate (make_kmer_list k).length 0)
            (make_kmer_list k) k s).map (fun x => x) :=
      List.map_congr_left (fun x hx => Nat.mod_eq_of_lt (hnw x hx))
    rw [hid, List.map_id']
    exact hsum
  · intro hlt
    unfold count_kmer
    rw [if_pos hlt]

/-- C5, witness: the amended statement evaluated on the spec's own example,
sequence `ACGT` with `k = 2`: three windows, all clean, all true counts
below `2^16`, stored total `3`. -/
theorem count_kmer_uint16_skips_exactly_nonACGT_witness :
    1 ≤ 2
    ∧ (count_kmer incU16 (List.replicate (make_kmer_list 2).length 0)
          (make_kmer_list 2) 2 ['A', 'C', 'G', 'T']
        = (count_kmer incNat (List.replicate (make_kmer_list 2).length 0)
            (make_kmer_list 2) 2 ['A', 'C', 'G', 'T']).map (· % 65536)
      ∧ (count_kmer incNat (List.replicate (make_kmer_list 2).length 0)
          (make_kmer_list 2) 2 ['A', 'C', 'G', 'T']).sum
        = (windows 2 ['A', 'C', 'G', 'T']).countP (fun w => w.all isACGT)
      ∧ ((∀ x ∈ count_kmer incNat (List.replicate (make_kmer_list 2).length 0)
            (make_kmer_list 2) 2 ['A', 'C', 'G', 'T'], x < 65536) →
          (count_kmer incU16 (List.replicate (make_kmer_list 2).length 0)
              (make_kmer_list 2) 2 ['A', 'C', 'G', 'T']).sum
            = (windows 2 ['A', 'C', 'G', 'T']).countP (fun w => w.all isACGT))
      ∧ ((['A', 'C', 'G', 'T'] : List Char).length < 2 →
          count_kmer incU16 (List.replicate (make_kmer_list 2).length 0)
              (make_kmer_list 2) 2 ['A', 'C', 'G', 'T']
            = List.replicate (make_kmer_list 2).length 0))
    ∧ (∀ x ∈ count_kmer incNat (List.replicate (make_kmer_list 2).length 0)
        (make_kmer_list 2) 2 ['A', 'C', 'G', 'T'], x < 65536)
    ∧ (count_kmer incU16 (List.replicate (make_kmer_list 2).length 0)
        (make_kmer_list 2) 2 ['A', 'C', 'G', 'T']).sum = 3 :=
  ⟨by decide,
    count_kmer_uint16_skips_exactly_nonACGT ['A', 'C', 'G', 'T'] 2 (by decide),
    by decide, by decide⟩

/-- C6: `make_kmer_list` is a pure function (every invocation with the same
`k` yields the identical list), its output is strictly ascending in the
lexicographic order (hence duplicate-free), every entry is the
canonicalization — the lexicographically smaller of an oligomer and its
reverse complement — of some oligomer, and the lengths at `k = 1` and
`k = 2` are the canonical-k-mer counts `2` and `10`. -/
theorem make_kmer_list_sorted_nodup_canonical (k : Nat) (hk : 1 ≤ k) :
    make_kmer_list k = make_kmer_list k
    ∧ (make_kmer_list k).Pairwise (fun a b => strLt a b = true)
    ∧ (make_kmer_list k).Nodup
    ∧ (∀ s ∈ make_kmer_list k, ∃ t, t ∈ all_kmers k ∧ s = canonical t)
    ∧ (make_kmer_list 1).length = 2
    ∧ (make_kmer_list 2).length = 10 := by
  refine ⟨rfl, pairwise_strLt_make_kmer_list k, nodup_make_kmer_list k, ?_,
    by decide, by decide⟩
  intro s hs
  rcases List.mem_map.mp (mem_make_kmer_list.mp hs) with ⟨t, ht, hct⟩
  exact ⟨t, ht, hct.symm⟩

/-- C6, witness: the statement evaluated at `k = 2`. -/
theorem make_kmer_list_sorted_nodup_canonical_witness :
    1 ≤ 2
    ∧ (make_kmer_list 2 = make_kmer_list 2
      ∧ (make_kmer_list 2).Pairwise (fun a b => strLt a b = true)
      ∧ (make_kmer_list 2).Nodup
      ∧ (∀ s ∈ make_kmer_list 2, ∃ t, t ∈ all_kmers 2 ∧ s = canonical t)
      ∧ (make_kmer_list 1).length = 2
      ∧ (make_kmer_list 2).length = 10) :=
  ⟨by decide, make_kmer_list_sorted_nodup_canonical 2 (by decide)⟩

/-- C7: the orchestrated run fails on an empty record iterator (before any
table exists — a failing run returns `Except.error`, never a table) and for
every input with at least one sequence it does not fail for emptiness: the
run succeeds exactly when the input is nonempty. -/
theorem cluster_fastx_empty_input_iff (umapFn : List (List Nat) → List (Int × Int))
    (hdbscanFn : List (Int × Int) → List Int) (k : Nat)
    (records : List (String × List Char × Option String)) :
    (cluster_fastx umapFn hdbscanFn k records).isOk = true ↔ records ≠ [] := by
  unfold cluster_fastx count_sequence_kmer kmer_count_matrix
  cases records with
  | nil =>
    simp
    rfl
  | cons r rs =>
    simp
    rfl

/-- C8: with confidence-based rendering active, the rows partition exactly
into the low-confidence rows (numeric confidence at or below the threshold)
and the high-confidence rows (all others, including every row whose
confidence is missing or non-numeric — fail open), and each partition is
rendered by its own scatter call with its own marker glyph. -/
theorem scatter_confidence_partition (rows : List PlotRow) (threshold : ℚ)
    (lowM highM : String) (useConf : Bool) (huse : useConf = true) :
    (low_rows rows threshold ++ high_rows rows threshold).Perm rows
    ∧ (∀ p ∈ rows, (low_mask threshold p.confidence = true
        ↔ ∃ x, p.confidence = some x ∧ x ≤ threshold))
    ∧ (∀ p ∈ rows, (low_mask threshold p.confidence = false
        ↔ (p.confidence = none ∨ ∃ x, p.confidence = some x ∧ threshold < x)))
    ∧ (∀ call ∈ scatter_groups useConf rows threshold lowM highM,
        (call.marker = lowM ∧ call.rows = low_rows rows threshold)
        ∨ (call.marker = highM ∧ call.rows = high_rows rows threshold))
    ∧ (∀ p ∈ rows, p ∈ low_rows rows threshold ∨ p ∈ high_rows rows threshold) := by
  subst huse
  refine ⟨?_, ?_, ?_, ?_, ?_⟩
  · exact List.filter_append_perm _ rows
  · intro p _
    cases hc : p.confidence with
    | none => simp [low_mask]
    | some x =>
      unfold low_mask
      constructor
      · intro h
        exact ⟨x, rfl, by simpa using h⟩
      · rintro ⟨y, hy, hle⟩
        have hxy : x = y := Option.some.inj hy
        subst hxy
        simpa using hle
  · intro p _
    cases hc : p.confidence with
    | none => simp [low_mask]
    | some x =>
      unfold low_mask
      constructor
      · intro h
        refine Or.inr ⟨x, rfl, ?_⟩
        simpa using h
      · rintro (h | ⟨y, hy, hlt⟩)
        · exact absurd h (by simp)
        · have hxy : x = y := Option.some.inj hy
          subst hxy
          simpa using hlt
  · intro call hcall
    unfold scatter_groups at hcall
    rw [if_pos rfl] at hcall
    rcases List.mem_append.mp hcall with h | h
    · split at h
      · exact absurd h (by simp)
      · rcases List.mem_singleton.mp h with rfl
        exact Or.inl ⟨rfl, rfl⟩
    · split at h
      · exact absurd h (by simp)
      · rcases List.mem_singleton.mp h with rfl
        exact Or.inr ⟨rfl, rfl⟩
  · intro p hp
    by_cases h : low_mask threshold p.confidence = true
    · exact Or.inl (List.mem_filter.mpr ⟨hp, h⟩)
    · refine Or.inr (List.mem_filter.mpr ⟨hp, ?_⟩)
      simp only [Bool.not_eq_true] at h
      rw [h]
      rfl

/-- C8, witness: the partition evaluated on `plotRows` at threshold `0` with
the default markers: the confidence-`0` row renders with `"x"`, the missing
and above-threshold rows with `"o"`. -/
theorem scatter_confidence_partition_witness :
    scatter_groups true plotRows 0 "x" "o"
      = [⟨"x", [⟨0, 0, 0, some 0⟩]⟩, ⟨"o", [⟨1, 1, 0, none⟩, ⟨2, 2, 1, some 1⟩]⟩]
    ∧ ((low_rows plotRows 0 ++ high_rows plotRows 0).Perm plotRows
      ∧ (∀ p ∈ plotRows, (low_mask 0 p.confidence = true
          ↔ ∃ x, p.confidence = some x ∧ x ≤ 0))
      ∧ (∀ p ∈ plotRows, (low_mask 0 p.confidence = false
          ↔ (p.confidence = none ∨ ∃ x, p.confidence = some x ∧ 0 < x)))
      ∧ (∀ call ∈ scatter_groups true plotRows 0 "x" "o",
          (call.marker = "x" ∧ call.rows = low_rows plotRows 0)
          ∨ (call.marker = "o" ∧ call.rows = high_rows plotRows 0))
      ∧ (∀ p ∈ plotRows, p ∈ low_rows plotRows 0 ∨ p ∈ high_rows plotRows 0)) :=
  ⟨by decide, scatter_confidence_partition plotRows 0 "x" "o" true rfl⟩

/-- C9: whenever `hydrate_clusters` succeeds, the annotated table has
exactly one row per input cluster-table row, in order; every original
column keeps its original value (the whole base row is unchanged — only
`TaxID` and `name` are added); and a read whose cluster has no summary row
appears with both added columns absent rather than being dropped. -/
theorem hydrate_clusters_row_preserving
    (sampler : List ClusterRow → Nat → List ClusterRow)
    (nameFn : List String → List (String × String)) (sample_size : Nat)
    (df : List ClusterRow) (m : ScoreMatrix)
    (ann : List HydratedRow) (summary : List SummaryRow)
    (h : hydrate_clusters sampler nameFn sample_size df m
      = Except.ok (ann, summary)) :
    ann.length = df.length
    ∧ List.Forall₂ (fun (a : HydratedRow) (r : ClusterRow) =>
        a.base = r
        ∧ (r.hdbscan_id ∉ summary.map (·.hdbscan_id) →
            (a.TaxID = none ∧ a.name = none))
        ∧ (r.hdbscan_id ∈ summary.map (·.hdbscan_id) →
            ∃ s, s ∈ summary ∧ s.hdbscan_id = r.hdbscan_id
              ∧ a.TaxID = some s.TaxID ∧ a.name = s.name)) ann df := by
  unfold hydrate_clusters at h
  cases hb : build_cluster_summary sampler nameFn sample_size df m with
  | error e =>
    rw [hb] at h
    exact absurd h (by simp [Except.map])
  | ok out =>
    rw [hb] at h
    simp only [Except.map] at h
    have h2 := Except.ok.inj h
    have hann : merge_left df out = ann := congrArg Prod.fst h2
    have hsum : out = summary := congrArg Prod.snd h2
    subst hsum
    rw [← hann]
    have hf := merge_left_forall₂ out (summary_ids_nodup hb) df
    exact ⟨hf.length_eq, hf⟩

/-- C9, witness: the statement evaluated on `dfHyd`: cluster `3` gets a
summary row, cluster `7` does not, and both reads survive the merge with
their original columns intact. -/
theorem hydrate_clusters_row_preserving_witness :
    ([(⟨⟨"r1", 10, 3, 0, 0⟩, some "77", some "Bacteria"⟩ : HydratedRow),
        ⟨⟨"rX", 4, 7, 1, 1⟩, none, none⟩] : List HydratedRow).length = dfHyd.length
    ∧ List.Forall₂ (fun (a : HydratedRow) (r : ClusterRow) =>
        a.base = r
        ∧ (r.hdbscan_id ∉ ([(⟨3, "77", some "Bacteria"⟩ : SummaryRow)] : List SummaryRow).map (·.hdbscan_id) →
            (a.TaxID = none ∧ a.name = none))
        ∧ (r.hdbscan_id ∈ ([(⟨3, "77", some "Bacteria"⟩ : SummaryRow)] : List SummaryRow).map (·.hdbscan_id) →
            ∃ s, s ∈ ([(⟨3, "77", some "Bacteria"⟩ : SummaryRow)] : List SummaryRow)
              ∧ s.hdbscan_id = r.hdbscan_id
              ∧ a.TaxID = some s.TaxID ∧ a.name = s.name))
        [⟨⟨"r1", 10, 3, 0, 0⟩, some "77", some "Bacteria"⟩,
          ⟨⟨"rX", 4, 7, 1, 1⟩, none, none⟩] dfHyd :=
  hydrate_clusters_row_preserving takeSampler oneName 5 dfHyd mHyd
    [⟨⟨"r1", 10, 3, 0, 0⟩, some "77", some "Bacteria"⟩,
      ⟨⟨"rX", 4, 7, 1, 1⟩, none, none⟩]
    [⟨3, "77", some "Bacteria"⟩] (by decide)

/-- C10: featurization is strand-invariant — for every `k ≥ 1` and every
sequence over `{A, C, G, T}`, the feature vector of the sequence equals the
feature vector of its reverse complement. -/
theorem count_kmer_strand_invariant (k : Nat) (s : List Char)
    (hk : 1 ≤ k) (hs : s.all isACGT = true) :
    count_kmer incNat (List.replicate (make_kmer_list k).length 0)
        (make_kmer_list k) k s
      = count_kmer incNat (List.replicate (make_kmer_list k).length 0)
          (make_kmer_list k) k (revComp s) :=
  (count_kmer_revComp_eq (make_kmer_list k) (nodup_make_kmer_list k) k s).symm

/-- C10, witness: the invariance evaluated on `AAC` (reverse complement
`GTT`) at `k = 2`. -/
theorem count_kmer_strand_invariant_witness :
    1 ≤ 2
    ∧ (['A', 'A', 'C'] : List Char).all isACGT = true
    ∧ count_kmer incNat (List.replicate (make_kmer_list 2).length 0)
        (make_kmer_list 2) 2 ['A', 'A', 'C']
      = count_kmer incNat (List.replicate (make_kmer_list 2).length 0)
          (make_kmer_list 2) 2 (revComp ['A', 'A', 'C']) :=
  ⟨by decide, by decide,
    count_kmer_strand_invariant 2 ['A', 'A', 'C'] (by decide) (by decide)⟩
